import Mathlib

/-!
# Verification of the CPU scheduling simulator

Shallow embedding of `src/scheduler.py`: the `Process` data model, the
shared metrics calculator, and the four scheduling algorithms (FCFS, SJF,
Round Robin, Priority).

Modelling conventions:
* Python integers are `Int`; Python float division in the metrics is
  modelled with exact rational arithmetic (`ℚ`).
* The Python `dict` used for the execution timeline is an insertion-ordered
  association list `List (Int × List (Int × Int))` (pid ↦ interval list),
  which matches Python dict semantics for the operations the code performs.
* `calculate_metrics` returns `{}` (a dict with no keys) on an empty input
  and otherwise a dict with exactly five keys; it is modelled as an
  `Option Metrics`, `none` standing for the empty dict.
* The Python constructor of a dataclass may in principle raise; it is
  modelled as an `Except String Process` value so that "construction is
  rejected" is expressible.  The code performs no validation, so the
  embedded constructor always returns `.ok`.
* The `while` loops of SJF/Priority/Round Robin are embedded with an
  explicit fuel parameter; `none` means the loop did not finish within the
  given fuel (covering both divergence and a raised exception inside the
  loop, e.g. `min()` on an empty sequence).
* Mutation of the `Process` objects held by the working list is modelled by
  replacing the first value-equal occurrence in the list
  (`replaceFirst`); Python's `p not in completed` membership test (which
  uses dataclass value equality) is modelled by decidable list membership.
-/

/-- The `Process` dataclass of `scheduler.py`: static inputs plus the
scheduling outputs the algorithms fill in. -/
structure Process where
  pid : Int
  arrival_time : Int
  burst_time : Int
  priority : Int
  remaining_time : Int
  wait_time : Int
  turnaround_time : Int
  completion_time : Int
deriving DecidableEq, Repr, Inhabited

/-- `Process(pid, arrival_time, burst_time, priority)` followed by
`__post_init__`: no validation is performed, `remaining_time` is set to
`burst_time` and the three output fields start at `0`. -/
def mkProcess (pid arrival_time burst_time priority : Int) :
    Except String Process :=
  .ok ⟨pid, arrival_time, burst_time, priority, burst_time, 0, 0, 0⟩

/-- The five-key metrics dict produced by `BaseScheduler.calculate_metrics`
on a non-empty input. -/
structure Metrics where
  avg_wait_time : ℚ
  avg_turnaround_time : ℚ
  total_time : Int
  cpu_utilization : ℚ
  context_switches : Nat
deriving DecidableEq, Repr

/-- `BaseScheduler.calculate_metrics`.  Returns `none` (the empty dict) on
an empty process list.  `context_switches` is the instance counter, passed
here explicitly. -/
def calculate_metrics (context_switches : Nat) (processes : List Process) :
    Option Metrics :=
  match processes with
  | [] => none
  | p :: ps =>
    let l := p :: ps
    let total_wait : Int := (l.map Process.wait_time).sum
    let total_turnaround : Int := (l.map Process.turnaround_time).sum
    let avg_wait : ℚ := (total_wait : ℚ) / (l.length : ℚ)
    let avg_turnaround : ℚ := (total_turnaround : ℚ) / (l.length : ℚ)
    let busy_time : Int := (l.map Process.burst_time).sum
    let earliest_arrival : Int :=
      ps.foldl (fun a q => min a q.arrival_time) p.arrival_time
    let last_completion : Int :=
      ps.foldl (fun a q => max a q.completion_time) p.completion_time
    let total_time : Int :=
      if earliest_arrival < last_completion then last_completion - earliest_arrival
      else 0
    let cpu_util : ℚ :=
      if 0 < total_time then ((busy_time : ℚ) / (total_time : ℚ)) * 100 else 0
    some ⟨avg_wait, avg_turnaround, total_time, cpu_util, context_switches⟩

/-- One row of `BaseScheduler.get_process_stats`. -/
structure ProcessStat where
  PID : Int
  Arrival : Int
  Burst : Int
  WaitTime : Int
  Turnaround : Int
  Completion : Int
deriving DecidableEq, Repr

/-- `BaseScheduler.get_process_stats`. -/
def get_process_stats (processes : List Process) : List ProcessStat :=
  processes.map fun p =>
    ⟨p.pid, p.arrival_time, p.burst_time, p.wait_time, p.turnaround_time,
      p.completion_time⟩

/-- The execution timeline: Python dict `pid ↦ {'intervals': [...]}`,
modelled as an insertion-ordered association list. -/
abbrev Timeline := List (Int × List (Int × Int))

/-- Appending an interval to the timeline entry of `pid`, creating the
entry at the end if absent (Python dict insertion order). -/
def addInterval (tl : Timeline) (pid : Int) (iv : Int × Int) : Timeline :=
  if tl.any (fun e => e.1 = pid) then
    tl.map (fun e => if e.1 = pid then (e.1, e.2 ++ [iv]) else e)
  else tl ++ [(pid, [iv])]

/-- The `{'execution': ..., 'metrics': ..., 'process_stats': ...}` dict
each `schedule` call returns. -/
structure ScheduleResult where
  execution : Timeline
  metrics : Option Metrics
  process_stats : List ProcessStat
deriving DecidableEq, Repr

/-- The comparison key of `sorted(..., key=lambda p: p.arrival_time)`. -/
def byArrival (p q : Process) : Prop := p.arrival_time ≤ q.arrival_time

instance : DecidableRel byArrival := fun p q => Int.decLe _ _

instance : IsTotal Process byArrival := ⟨fun p q => Int.le_total _ _⟩

instance : IsTrans Process byArrival := ⟨fun _ _ _ => Int.le_trans⟩

/-- `sorted(processes, key=lambda p: p.arrival_time)`: Python's `sorted` is
stable, and any two stable sorts by the same key agree, so insertion sort
by `byArrival` computes the same list. -/
def sortByArrival (processes : List Process) : List Process :=
  List.insertionSort byArrival processes

/-- Replace the first occurrence of the value `a` in the list by `b`.  This
models an in-place mutation of a Python object held by the list: the
mutated object is the first list position whose current value is `a`. -/
def replaceFirst (l : List Process) (a b : Process) : List Process :=
  match l with
  | [] => []
  | x :: xs => if x = a then b :: xs else x :: replaceFirst xs a b

/-- `FCFSScheduler.schedule`'s `for` loop: runs each process of the
arrival-sorted working copy to completion, returning the finalized
processes (in list order), the timeline, and the context-switch count.
The Python variable `last_end_time` is written but never read and is
omitted. -/
def fcfsRun (tl : Timeline) (current_time : Int) (last_executed_pid : Option Int)
    (context_switches : Nat) :
    List Process → List Process × Timeline × Nat
  | [] => ([], tl, context_switches)
  | process :: rest =>
    let current_time :=
      if current_time < process.arrival_time then process.arrival_time
      else current_time
    let start_time := current_time
    let end_time := current_time + process.burst_time
    let p' := { process with
      wait_time := start_time - process.arrival_time
      completion_time := end_time
      turnaround_time := end_time - process.arrival_time }
    let tl' := addInterval tl process.pid (start_time, end_time)
    let cs' :=
      match last_executed_pid with
      | some lp => if lp ≠ process.pid then context_switches + 1 else context_switches
      | none => context_switches
    let (fin, tlF, csF) := fcfsRun tl' end_time (some process.pid) cs' rest
    (p' :: fin, tlF, csF)

/-- `FCFSScheduler.schedule`. -/
def fcfsSchedule (processes : List Process) : ScheduleResult :=
  let ps := sortByArrival processes
  let (fin, tl, cs) := fcfsRun [] 0 none 0 ps
  ⟨tl, calculate_metrics cs fin, get_process_stats fin⟩

/-- Python's `min(iterable, key=key)`: the first element attaining the
minimal key (`min` replaces its running best only on a strictly smaller
key).  `none` on the empty list (`ValueError`). -/
def minByFirst (key : Process → Int) : List Process → Option Process
  | [] => none
  | p :: ps => some (ps.foldl (fun best q => if key q < key best then q else best) p)

/-- Python's `min` over a list of integers; `none` on the empty list
(`ValueError`). -/
def minList : List Int → Option Int
  | [] => none
  | x :: xs => some (xs.foldl min x)

/-- The `available` list of SJF/Priority: processes of the working list
that have arrived and are not (by dataclass value equality) members of the
`completed` list. -/
def availableOf (processes completed : List Process) (current_time : Int) :
    List Process :=
  processes.filter fun p =>
    decide (p.arrival_time ≤ current_time ∧ p ∉ completed)

/-- The shared `while` loop of `SJFScheduler.schedule` and
`PriorityScheduler.schedule`; the two differ only in the selection key
(`burst_time` vs `priority`).  Fuel-indexed; `none` means the loop did not
return (it spun or raised) within `fuel` iterations. -/
def npLoop (key : Process → Int) :
    Nat → List Process → List Process → Timeline → Nat → Int →
    Option (List Process × Timeline × Nat)
  | 0, _, _, _, _, _ => none
  | fuel + 1, processes, completed, tl, cs, current_time =>
    if completed.length < processes.length then
      match minByFirst key (availableOf processes completed current_time) with
      | none =>
        -- CPU idle: advance to the next arrival among unfinished processes
        match minList ((processes.filter (fun p => decide (p ∉ completed))).map
            Process.arrival_time) with
        | none => none   -- min() of an empty sequence raises ValueError
        | some next_arrival => npLoop key fuel processes completed tl cs next_arrival
      | some process =>
        let start_time := current_time
        let end_time := current_time + process.burst_time
        let p' := { process with
          wait_time := start_time - process.arrival_time
          completion_time := end_time
          turnaround_time := end_time - process.arrival_time }
        let processes' := replaceFirst processes process p'
        let tl' := addInterval tl process.pid (start_time, end_time)
        -- `if len(self.execution_timeline) > 1 and list(keys)[-2] != process.pid`
        let keys := tl'.map Prod.fst
        let cs' :=
          if 1 < keys.length ∧ keys.getD (keys.length - 2) 0 ≠ process.pid then cs + 1
          else cs
        npLoop key fuel processes' (completed ++ [p']) tl' cs' end_time
    else some (processes, tl, cs)

/-- `SJFScheduler.schedule`. -/
def sjfSchedule (fuel : Nat) (processes : List Process) : Option ScheduleResult :=
  let ps := sortByArrival processes
  match npLoop (fun p => p.burst_time) fuel ps [] [] 0 0 with
  | none => none
  | some (fin, tl, cs) =>
    some ⟨tl, calculate_metrics cs fin, get_process_stats fin⟩

/-- `PriorityScheduler.schedule`. -/
def prioritySchedule (fuel : Nat) (processes : List Process) :
    Option ScheduleResult :=
  let ps := sortByArrival processes
  match npLoop (fun p => p.priority) fuel ps [] [] 0 0 with
  | none => none
  | some (fin, tl, cs) =>
    some ⟨tl, calculate_metrics cs fin, get_process_stats fin⟩

/-- The state of `RoundRobinScheduler.schedule`'s `while` loop.  The ready
queue holds the current values of the queued `Process` objects; the
Python variable `last_end_time` is written but never read and is omitted. -/
structure RRState where
  processes : List Process
  ready_queue : List Process
  current_time : Int
  completed : Nat
  process_idx : Nat
  last_process : Option Int
  timeline : Timeline
  context_switches : Nat
deriving DecidableEq, Repr

/-- The processes enqueued by one run of the inner
`while process_idx < len(processes) and processes[process_idx].arrival_time <= current_time`
loop: the longest prefix of the still-pending suffix that has arrived. -/
def newlyArrived (processes : List Process) (process_idx : Nat) (t : Int) :
    List Process :=
  (processes.drop process_idx).takeWhile (fun p => decide (p.arrival_time ≤ t))

/-- One iteration of the Round Robin `while` loop body (entered only when
`completed < len(processes)`). -/
def rrStep (quantum : Int) (s : RRState) : RRState :=
  let newly := newlyArrived s.processes s.process_idx s.current_time
  let q1 := s.ready_queue ++ newly
  let idx1 := s.process_idx + newly.length
  match q1 with
  | [] =>
    if idx1 < s.processes.length then
      { s with
        ready_queue := q1
        process_idx := idx1
        current_time := (s.processes.getD idx1 default).arrival_time }
    else
      { s with ready_queue := q1, process_idx := idx1 }
  | process :: rest =>
    let exec_time := min quantum process.remaining_time
    let start_time := s.current_time
    let end_time := s.current_time + exec_time
    let cs' :=
      match s.last_process with
      | some lp =>
        if lp ≠ process.pid then s.context_switches + 1 else s.context_switches
      | none => s.context_switches
    let tl' := addInterval s.timeline process.pid (start_time, end_time)
    let p1 := { process with remaining_time := process.remaining_time - exec_time }
    let processes1 := replaceFirst s.processes process p1
    let newly2 := newlyArrived processes1 idx1 end_time
    let idx2 := idx1 + newly2.length
    if 0 < p1.remaining_time then
      { processes := processes1
        ready_queue := rest ++ newly2 ++ [p1]
        current_time := end_time
        completed := s.completed
        process_idx := idx2
        last_process := some process.pid
        timeline := tl'
        context_switches := cs' }
    else
      let pF := { p1 with
        completion_time := end_time
        turnaround_time := end_time - p1.arrival_time
        wait_time := (end_time - p1.arrival_time) - p1.burst_time }
      { processes := replaceFirst processes1 p1 pF
        ready_queue := rest ++ newly2
        current_time := end_time
        completed := s.completed + 1
        process_idx := idx2
        last_process := some process.pid
        timeline := tl'
        context_switches := cs' }

/-- The Round Robin `while completed < len(processes)` loop, fuel-indexed. -/
def rrLoop (quantum : Int) : Nat → RRState → Option RRState
  | 0, _ => none
  | fuel + 1, s =>
    if s.completed < s.processes.length then rrLoop quantum fuel (rrStep quantum s)
    else some s

/-- `RoundRobinScheduler.schedule`. -/
def rrSchedule (fuel : Nat) (quantum : Int) (processes : List Process) :
    Option ScheduleResult :=
  let ps := sortByArrival processes
  match rrLoop quantum fuel ⟨ps, [], 0, 0, 0, none, [], 0⟩ with
  | none => none
  | some s =>
    some ⟨s.timeline, calculate_metrics s.context_switches s.processes,
      get_process_stats s.processes⟩

/-!
## Heap model of caller-owned objects

Python callers hand the schedulers references to `Process` objects.  The
heap is modelled as a list of `Process` cells; callers hold indices into
it.  `copy.deepcopy` allocates fresh cells, so a `schedule` call only ever
appends to the heap (the final states of its working copies); the caller's
cells are never written. -/

/-- Run an algorithm on deep copies: read the caller's cells, run `run` on
the copied values, and append the copies' final states as fresh cells. -/
def runOnCopies {β : Type} (run : List Process → List Process × β)
    (heap : List Process) (ptrs : List Nat) : List Process × β :=
  let input := ptrs.map fun i => heap.getD i default
  let (finals, res) := run input
  (heap ++ finals, res)

/-- `FCFSScheduler.schedule` against the heap model. -/
def fcfsScheduleHeap (heap : List Process) (ptrs : List Nat) :
    List Process × ScheduleResult :=
  runOnCopies (fun input =>
    let ps := sortByArrival input
    let (fin, tl, cs) := fcfsRun [] 0 none 0 ps
    (fin, ⟨tl, calculate_metrics cs fin, get_process_stats fin⟩)) heap ptrs

/-- `SJFScheduler.schedule` against the heap model (`none` when the loop
does not return; the copies are then discarded). -/
def sjfScheduleHeap (fuel : Nat) (heap : List Process) (ptrs : List Nat) :
    List Process × Option ScheduleResult :=
  runOnCopies (fun input =>
    match npLoop (fun p => p.burst_time) fuel (sortByArrival input) [] [] 0 0 with
    | none => ([], none)
    | some (fin, tl, cs) =>
      (fin, some ⟨tl, calculate_metrics cs fin, get_process_stats fin⟩)) heap ptrs

/-- `PriorityScheduler.schedule` against the heap model. -/
def priorityScheduleHeap (fuel : Nat) (heap : List Process) (ptrs : List Nat) :
    List Process × Option ScheduleResult :=
  runOnCopies (fun input =>
    match npLoop (fun p => p.priority) fuel (sortByArrival input) [] [] 0 0 with
    | none => ([], none)
    | some (fin, tl, cs) =>
      (fin, some ⟨tl, calculate_metrics cs fin, get_process_stats fin⟩)) heap ptrs

/-- `RoundRobinScheduler.schedule` against the heap model. -/
def rrScheduleHeap (fuel : Nat) (quantum : Int) (heap : List Process)
    (ptrs : List Nat) : List Process × Option ScheduleResult :=
  runOnCopies (fun input =>
    match rrLoop quantum fuel ⟨sortByArrival input, [], 0, 0, 0, none, [], 0⟩ with
    | none => ([], none)
    | some s =>
      (s.processes, some ⟨s.timeline, calculate_metrics s.context_switches s.processes,
        get_process_stats s.processes⟩)) heap ptrs

/-!
## Shared example processes and predicates
-/

/-- A single fresh process: pid 1, arrival 0, burst 1. -/
def pOne : Process := ⟨1, 0, 1, 0, 1, 0, 0, 0⟩

/-- Fresh process P1(arrival 0, burst 5) of the Round Robin fairness test. -/
def pRR1 : Process := ⟨1, 0, 5, 0, 5, 0, 0, 0⟩

/-- Fresh process P2(arrival 0, burst 5) of the Round Robin fairness test. -/
def pRR2 : Process := ⟨2, 0, 5, 0, 5, 0, 0, 0⟩

/-- The per-process invariant of the spec: `turnaround_time =
completion_time - arrival_time` and `wait_time = turnaround_time -
burst_time`. -/
def procInv (p : Process) : Prop :=
  p.turnaround_time = p.completion_time - p.arrival_time ∧
  p.wait_time = p.turnaround_time - p.burst_time

/-- The same invariant on a stats row. -/
def statInv (st : ProcessStat) : Prop :=
  st.Turnaround = st.Completion - st.Arrival ∧
  st.WaitTime = st.Turnaround - st.Burst

/-- A process none of whose output fields has been written yet (the state
in which callers construct processes: `wait_time`, `turnaround_time` and
`completion_time` all `0`). -/
def untouched (p : Process) : Prop :=
  p.wait_time = 0 ∧ p.turnaround_time = 0 ∧ p.completion_time = 0

/-- Termination of a Round Robin call: some fuel suffices. -/
def rrTerminatesOn (quantum : Int) (processes : List Process) : Prop :=
  ∃ fuel, (rrSchedule fuel quantum processes).isSome

/-!
## Helper lemmas
-/

lemma runOnCopies_fst {β : Type} (run : List Process → List Process × β)
    (heap : List Process) (ptrs : List Nat) :
    (runOnCopies run heap ptrs).1 =
      heap ++ (run (ptrs.map fun i => heap.getD i default)).1 := by
  rcases h : run (ptrs.map fun i => heap.getD i default) with ⟨fin, r⟩
  simp only [runOnCopies]
  rw [h]

lemma runOnCopies_snd {β : Type} (run : List Process → List Process × β)
    (heap : List Process) (ptrs : List Nat) :
    (runOnCopies run heap ptrs).2 =
      (run (ptrs.map fun i => heap.getD i default)).2 := by
  rcases h : run (ptrs.map fun i => heap.getD i default) with ⟨fin, r⟩
  simp only [runOnCopies]
  rw [h]

/-- The state of the busy loop `RoundRobinScheduler.schedule` enters on
input `[pOne]` with `quantum = 0`. -/
def rrSpin (s : RRState) : Prop :=
  s.processes = [pOne] ∧ s.ready_queue = [pOne] ∧ s.current_time = 0 ∧
  s.completed = 0 ∧ s.process_idx = 1

lemma rrStep_spin (s : RRState) (h : rrSpin s) : rrSpin (rrStep 0 s) := by
  obtain ⟨procs, q, t, c, idx, lp, tl, cs⟩ := s
  obtain ⟨h1, h2, h3, h4, h5⟩ := h
  simp only at h1 h2 h3 h4 h5
  subst h1 h2 h3 h4 h5
  refine ⟨?_, ?_, ?_, ?_, ?_⟩ <;>
    simp [rrStep, newlyArrived, pOne, replaceFirst]

lemma rrLoop_spin : ∀ (fuel : Nat) (s : RRState), rrSpin s →
    rrLoop 0 fuel s = none := by
  intro fuel
  induction fuel with
  | zero => intro s _; rfl
  | succ f ih =>
    intro s hs
    have hlt : s.completed < s.processes.length := by
      rw [hs.2.2.2.1, hs.1]; decide
    rw [rrLoop, if_pos hlt]
    exact ih _ (rrStep_spin s hs)

lemma rrSchedule_quantum_zero_none : ∀ fuel : Nat,
    rrSchedule fuel 0 [pOne] = none := by
  intro fuel
  cases fuel with
  | zero => rfl
  | succ f =>
    have hstart : rrSpin (rrStep 0 ⟨[pOne], [], 0, 0, 0, none, [], 0⟩) := by
      refine ⟨?_, ?_, ?_, ?_, ?_⟩ <;> decide
    have hsort : sortByArrival [pOne] = [pOne] := by decide
    have hnone : rrLoop 0 (f + 1) ⟨[pOne], [], 0, 0, 0, none, [], 0⟩ = none := by
      rw [rrLoop, if_pos (by decide)]
      exact rrLoop_spin f _ hstart
    simp [rrSchedule, hsort, hnone]

/-!
## Error handling claims
-/

/-- Claim C5, counterexample: constructing a `Process` with negative
`arrival_time` and non-positive `burst_time` is accepted, not rejected —
the constructor returns `.ok` at this input. -/
theorem C5_counterexample :
    mkProcess 1 (-1) 0 0 = .ok ⟨1, -1, 0, 0, 0, 0, 0, 0⟩ := rfl

/-- Claim C5, amended: `Process` construction performs no validation —
every combination of integer arguments is accepted, and construction just
initializes `remaining_time` to `burst_time` and the output fields to 0
(input constraints are enforced only by the UI layer in `app.py`). -/
theorem C5_construction_unvalidated :
    ∀ pid arrival burst priority : Int,
      mkProcess pid arrival burst priority =
        .ok ⟨pid, arrival, burst, priority, burst, 0, 0, 0⟩ :=
  fun _ _ _ _ => rfl

/-- Claim C6, counterexample: a Round Robin call with `quantum = 0` is not
rejected — on an empty process list it runs to completion and returns the
normal empty result. -/
theorem C6_counterexample :
    rrSchedule 1 0 [] = some ⟨[], none, []⟩ := rfl

/-- Claim C6, amended: `RoundRobinScheduler.schedule` performs no quantum
validation.  With `quantum = 0` it returns normally on an empty list, and
on the non-empty list `[pOne]` its simulation loop never terminates (every
slice executes 0 time units and re-queues the process unchanged). -/
theorem C6_no_quantum_validation :
    (rrSchedule 1 0 [] = some ⟨[], none, []⟩) ∧
    (∀ fuel : Nat, rrSchedule fuel 0 [pOne] = none) :=
  ⟨rfl, rrSchedule_quantum_zero_none⟩

/-- Claim C7, counterexample: scheduling an empty process list yields an
*empty* metrics dict (`calculate_metrics` returns `{}`), not a metrics
record whose five entries are all zero. -/
theorem C7_counterexample :
    (fcfsSchedule []).metrics = none ∧
    (fcfsSchedule []).metrics ≠ some ⟨0, 0, 0, 0, 0⟩ := by
  exact ⟨rfl, by decide⟩

/-- Claim C7, amended: scheduling an empty process list does not fail for
any of the four algorithms: each returns an empty timeline, an empty
process-statistics list, and an empty metrics mapping (no keys — not a
zero-valued record). -/
theorem C7_empty_input :
    fcfsSchedule [] = ⟨[], none, []⟩ ∧
    (∀ fuel : Nat, sjfSchedule (fuel + 1) [] = some ⟨[], none, []⟩) ∧
    (∀ fuel : Nat, prioritySchedule (fuel + 1) [] = some ⟨[], none, []⟩) ∧
    (∀ (fuel : Nat) (quantum : Int),
      rrSchedule (fuel + 1) quantum [] = some ⟨[], none, []⟩) :=
  ⟨rfl, fun _ => rfl, fun _ => rfl, fun _ _ => rfl⟩

/-- Claim C8: no schedule call writes any caller-owned heap cell — each
algorithm deep-copies its input and the caller's cells are bit-for-bit
unchanged after the call; moreover the heap-model call returns exactly the
result of the plain call on the read values. -/
theorem C8_no_caller_mutation :
    ∀ (heap : List Process) (ptrs : List Nat) (fuel : Nat) (quantum : Int),
      ((fcfsScheduleHeap heap ptrs).1.take heap.length = heap ∧
        (fcfsScheduleHeap heap ptrs).2 =
          fcfsSchedule (ptrs.map fun i => heap.getD i default)) ∧
      ((sjfScheduleHeap fuel heap ptrs).1.take heap.length = heap ∧
        (sjfScheduleHeap fuel heap ptrs).2 =
          sjfSchedule fuel (ptrs.map fun i => heap.getD i default)) ∧
      ((priorityScheduleHeap fuel heap ptrs).1.take heap.length = heap ∧
        (priorityScheduleHeap fuel heap ptrs).2 =
          prioritySchedule fuel (ptrs.map fun i => heap.getD i default)) ∧
      ((rrScheduleHeap fuel quantum heap ptrs).1.take heap.length = heap ∧
        (rrScheduleHeap fuel quantum heap ptrs).2 =
          rrSchedule fuel quantum (ptrs.map fun i => heap.getD i default)) := by
  intro heap ptrs fuel quantum
  refine ⟨⟨?_, ?_⟩, ⟨?_, ?_⟩, ⟨?_, ?_⟩, ⟨?_, ?_⟩⟩
  case _ => rw [fcfsScheduleHeap, runOnCopies_fst, List.take_left]
  case _ => rw [fcfsScheduleHeap, runOnCopies_snd, fcfsSchedule]
  case _ => rw [sjfScheduleHeap, runOnCopies_fst, List.take_left]
  case _ =>
    rw [sjfScheduleHeap, runOnCopies_snd, sjfSchedule]
    rcases npLoop (fun p => p.burst_time) fuel
        (sortByArrival (ptrs.map fun i => heap.getD i default)) [] [] 0 0
      with _ | ⟨fin, tl, cs⟩ <;> rfl
  case _ => rw [priorityScheduleHeap, runOnCopies_fst, List.take_left]
  case _ =>
    rw [priorityScheduleHeap, runOnCopies_snd, prioritySchedule]
    rcases npLoop (fun p => p.priority) fuel
        (sortByArrival (ptrs.map fun i => heap.getD i default)) [] [] 0 0
      with _ | ⟨fin, tl, cs⟩ <;> rfl
  case _ => rw [rrScheduleHeap, runOnCopies_fst, List.take_left]
  case _ =>
    rw [rrScheduleHeap, runOnCopies_snd, rrSchedule]
    rcases rrLoop quantum fuel
        ⟨sortByArrival (ptrs.map fun i => heap.getD i default), [], 0, 0, 0, none, [], 0⟩
      with _ | s <;> rfl

/-!
## Claim C4: the metrics calculator
-/

lemma foldl_min_le_init (f : Process → Int) (l : List Process) (init : Int) :
    l.foldl (fun a q => min a (f q)) init ≤ init := by
  induction l generalizing init with
  | nil => simp
  | cons q qs ih =>
    simp only [List.foldl_cons]
    exact le_trans (ih (min init (f q))) (min_le_left _ _)

lemma foldl_min_le_mem (f : Process → Int) (x : Process) :
    ∀ (l : List Process) (init : Int), x ∈ l →
      l.foldl (fun a q => min a (f q)) init ≤ f x := by
  intro l
  induction l with
  | nil => intro init h; cases h
  | cons q qs ih =>
    intro init h
    rcases List.mem_cons.mp h with rfl | h
    · simp only [List.foldl_cons]
      exact le_trans (foldl_min_le_init f qs _) (min_le_right _ _)
    · simp only [List.foldl_cons]
      exact ih _ h

lemma le_foldl_max_init (f : Process → Int) (l : List Process) (init : Int) :
    init ≤ l.foldl (fun a q => max a (f q)) init := by
  induction l generalizing init with
  | nil => simp
  | cons q qs ih =>
    simp only [List.foldl_cons]
    exact le_trans (le_max_left _ _) (ih (max init (f q)))

lemma le_foldl_max_mem (f : Process → Int) (x : Process) :
    ∀ (l : List Process) (init : Int), x ∈ l →
      f x ≤ l.foldl (fun a q => max a (f q)) init := by
  intro l
  induction l with
  | nil => intro init h; cases h
  | cons q qs ih =>
    intro init h
    rcases List.mem_cons.mp h with rfl | h
    · simp only [List.foldl_cons]
      exact le_trans (le_max_right _ _) (le_foldl_max_init f qs _)
    · simp only [List.foldl_cons]
      exact ih _ h

/-- The content of claim C4 for one non-empty input `p :: ps` and
context-switch count `cs`: the metrics record exists and each of its
fields equals the specified formula; the folds appearing in `total_time`
are genuinely the minimum arrival and maximum completion (third-to-last
conjunct). -/
def C4MetricsSpec (p : Process) (ps : List Process) (cs : Nat) : Prop :=
  ∃ m, calculate_metrics cs (p :: ps) = some m ∧
    m.avg_wait_time =
      (((p :: ps).map Process.wait_time).sum : ℚ) / ((p :: ps).length : ℚ) ∧
    m.avg_turnaround_time =
      (((p :: ps).map Process.turnaround_time).sum : ℚ) / ((p :: ps).length : ℚ) ∧
    m.total_time =
      ps.foldl (fun a q => max a q.completion_time) p.completion_time -
        ps.foldl (fun a q => min a q.arrival_time) p.arrival_time ∧
    (∀ x ∈ p :: ps,
      ps.foldl (fun a q => min a q.arrival_time) p.arrival_time ≤ x.arrival_time ∧
      x.completion_time ≤
        ps.foldl (fun a q => max a q.completion_time) p.completion_time) ∧
    0 < m.total_time ∧
    m.cpu_utilization =
      100 * (((p :: ps).map Process.burst_time).sum : ℚ) / (m.total_time : ℚ) ∧
    m.context_switches = cs

/-- Claim C4: on every non-empty completed process set (every process has
`arrival_time < completion_time`, which holds for every completed set),
`calculate_metrics` returns a metrics record with `avg_wait_time` the mean
wait, `avg_turnaround_time` the mean turnaround, `total_time` the maximum
completion minus the minimum arrival, and `cpu_utilization` equal to
`100 * sum(burst) / total_time`; it never fails on a non-empty list, and
whenever the computed `total_time` is `0` the utilization is `0`. -/
theorem C4_calculate_metrics :
    (∀ (p : Process) (ps : List Process) (cs : Nat),
      (calculate_metrics cs (p :: ps)).isSome) ∧
    (∀ (p : Process) (ps : List Process) (cs : Nat),
      (∀ x ∈ p :: ps, x.arrival_time < x.completion_time) →
      C4MetricsSpec p ps cs) ∧
    (∀ (p : Process) (ps : List Process) (cs : Nat) (m : Metrics),
      calculate_metrics cs (p :: ps) = some m → m.total_time = 0 →
      m.cpu_utilization = 0) := by
  refine ⟨fun p ps cs => rfl, ?_, ?_⟩
  · intro p ps cs h
    have hEL : ps.foldl (fun a q => min a q.arrival_time) p.arrival_time <
        ps.foldl (fun a q => max a q.completion_time) p.completion_time :=
      lt_of_le_of_lt (foldl_min_le_init _ _ _)
        (lt_of_lt_of_le (h p (List.mem_cons_self p ps)) (le_foldl_max_init _ _ _))
    have hcm : calculate_metrics cs (p :: ps) = some
        ⟨(((p :: ps).map Process.wait_time).sum : ℚ) / ((p :: ps).length : ℚ),
          (((p :: ps).map Process.turnaround_time).sum : ℚ) / ((p :: ps).length : ℚ),
          ps.foldl (fun a q => max a q.completion_time) p.completion_time -
            ps.foldl (fun a q => min a q.arrival_time) p.arrival_time,
          ((((p :: ps).map Process.burst_time).sum : ℚ) /
            ((ps.foldl (fun a q => max a q.completion_time) p.completion_time -
              ps.foldl (fun a q => min a q.arrival_time) p.arrival_time : Int) : ℚ)) * 100,
          cs⟩ := by
      simp only [calculate_metrics]
      rw [if_pos hEL, if_pos (by omega)]
    refine ⟨_, hcm, rfl, rfl, rfl, ?_, by simp; omega, by simp; ring, rfl⟩
    intro x hx
    rcases List.mem_cons.mp hx with rfl | hx
    · exact ⟨foldl_min_le_init _ _ _, le_foldl_max_init _ _ _⟩
    · exact ⟨foldl_min_le_mem _ _ _ _ hx, le_foldl_max_mem _ _ _ _ hx⟩
  · intro p ps cs m hm h0
    simp only [calculate_metrics] at hm
    have hm' := Option.some.inj hm
    subst hm'
    simp only at h0 ⊢
    rw [h0]
    norm_num

/-- Process used in the C4 witness: arrival 0, completed at 3. -/
def pW : Process := ⟨1, 0, 2, 0, 2, 1, 3, 3⟩

/-- Process used in the C4 witness whose metrics have `total_time = 0`. -/
def pZ : Process := ⟨1, 0, 0, 0, 0, 0, 0, 0⟩

/-- Witness for C4 at `[pW]` and `[pZ]`. -/
theorem C4_witness :
    (∀ x ∈ [pW], x.arrival_time < x.completion_time) ∧
    C4MetricsSpec pW [] 2 ∧
    (calculate_metrics 0 [pZ] = some ⟨0, 0, 0, 0, 0⟩ ∧
      (⟨0, 0, 0, 0, 0⟩ : Metrics).total_time = 0 ∧
      (⟨0, 0, 0, 0, 0⟩ : Metrics).cpu_utilization = 0) :=
  have hz : calculate_metrics 0 [pZ] = some ⟨0, 0, 0, 0, 0⟩ := by
    norm_num [calculate_metrics, pZ]
  ⟨by decide, C4_calculate_metrics.2.1 pW [] 2 (by decide),
    hz, by decide,
    C4_calculate_metrics.2.2 pZ [] 0 ⟨0, 0, 0, 0, 0⟩ hz (by decide)⟩

/-!
## Claim C2: Round Robin enqueue order and the fairness trace
-/

/-- The queue shape after one executed Round Robin slice: first the tail of
the ready queue, then the processes that arrived during the slice, and only
then — when it still has remaining work — the process that was just run. -/
def C2QueueShape (quantum : Int) (s : RRState) (process : Process)
    (rest : List Process) : Prop :=
  (rrStep quantum s).ready_queue =
    rest ++
      newlyArrived
        (replaceFirst s.processes process
          { process with remaining_time :=
              process.remaining_time - min quantum process.remaining_time })
        (s.process_idx +
          (newlyArrived s.processes s.process_idx s.current_time).length)
        (s.current_time + min quantum process.remaining_time) ++
      (if 0 < process.remaining_time - min quantum process.remaining_time then
        [{ process with remaining_time :=
            process.remaining_time - min quantum process.remaining_time }]
      else [])

/-- Claim C2: in every executed Round Robin slice the processes that
arrived by the slice's end are enqueued before the just-run process is
re-enqueued (`C2QueueShape`), and on P1(arrival 0, burst 5), P2(arrival 0,
burst 5) with quantum 2 the execution order is exactly P1[0,2), P2[2,4),
P1[4,6), P2[6,8), P1[8,9), P2[9,10) with completion times 9 and 10. -/
theorem C2_round_robin_enqueue_order :
    (∀ (quantum : Int) (s : RRState) (process : Process) (rest : List Process),
      s.ready_queue ++ newlyArrived s.processes s.process_idx s.current_time
          = process :: rest →
      C2QueueShape quantum s process rest) ∧
    ((rrSchedule 20 2 [pRR1, pRR2]).map ScheduleResult.execution =
      some [(1, [(0, 2), (4, 6), (8, 9)]), (2, [(2, 4), (6, 8), (9, 10)])]) ∧
    ((rrSchedule 20 2 [pRR1, pRR2]).map ScheduleResult.process_stats =
      some [⟨1, 0, 5, 4, 9, 9⟩, ⟨2, 0, 5, 5, 10, 10⟩]) := by
  refine ⟨?_, by decide, by decide⟩
  intro quantum s process rest h
  unfold C2QueueShape
  simp only [rrStep]
  rw [h]
  dsimp only
  by_cases hrem :
      0 < process.remaining_time - min quantum process.remaining_time
  · rw [if_pos hrem, if_pos hrem]
  · rw [if_neg hrem, if_neg hrem]
    simp

/-- Witness for C2's general conjunct at the initial state of the fairness
example. -/
theorem C2_witness :
    (RRState.ready_queue ⟨[pRR1, pRR2], [], 0, 0, 0, none, [], 0⟩ ++
        newlyArrived [pRR1, pRR2] 0 0 = pRR1 :: [pRR2]) ∧
    C2QueueShape 2 ⟨[pRR1, pRR2], [], 0, 0, 0, none, [], 0⟩ pRR1 [pRR2] :=
  ⟨by decide,
    C2_round_robin_enqueue_order.1 2 ⟨[pRR1, pRR2], [], 0, 0, 0, none, [], 0⟩
      pRR1 [pRR2] (by decide)⟩

/-!
## Claim C1: the turnaround/wait invariant
-/

lemma mem_replaceFirst {l : List Process} {a b x : Process}
    (h : x ∈ replaceFirst l a b) : x ∈ l ∨ x = b := by
  induction l with
  | nil => simp [replaceFirst] at h
  | cons y ys ih =>
    simp only [replaceFirst] at h
    by_cases hy : y = a
    · rw [if_pos hy] at h
      rcases List.mem_cons.mp h with rfl | h
      · right; rfl
      · left; exact List.mem_cons_of_mem _ h
    · rw [if_neg hy] at h
      rcases List.mem_cons.mp h with rfl | h
      · left; exact List.mem_cons_self _ _
      · rcases ih h with h | h
        · left; exact List.mem_cons_of_mem _ h
        · right; exact h

lemma mem_newlyArrived {procs : List Process} {i : Nat} {t : Int} {x : Process}
    (h : x ∈ newlyArrived procs i t) : x ∈ procs :=
  (List.drop_sublist i procs).mem ((List.takeWhile_sublist _).mem h)

lemma mem_sortByArrival {ps : List Process} {x : Process} :
    x ∈ sortByArrival ps ↔ x ∈ ps :=
  (List.perm_insertionSort byArrival ps).mem_iff

lemma fcfsRun_inv : ∀ (ps : List Process) (tl : Timeline) (t : Int)
    (lp : Option Int) (cs : Nat), ∀ p ∈ (fcfsRun tl t lp cs ps).1, procInv p := by
  intro ps
  induction ps with
  | nil => intro tl t lp cs p hp; simp [fcfsRun] at hp
  | cons q qs ih =>
    intro tl t lp cs p hp
    simp only [fcfsRun] at hp
    rcases List.mem_cons.mp hp with rfl | hp
    · constructor
      · dsimp only
      · dsimp only; omega
    · exact ih _ _ _ _ p hp

lemma npLoop_procInv (key : Process → Int) :
    ∀ (fuel : Nat) (procs completed : List Process) (tl : Timeline) (cs : Nat)
      (t : Int) (out : List Process × Timeline × Nat),
      npLoop key fuel procs completed tl cs t = some out →
      (∀ p ∈ procs, procInv p ∨ untouched p) →
      ∀ p ∈ out.1, procInv p ∨ untouched p := by
  intro fuel
  induction fuel with
  | zero => intro _ _ _ _ _ out h; cases h
  | succ f ih =>
    intro procs completed tl cs t out h hD
    rw [npLoop] at h
    by_cases hlt : completed.length < procs.length
    · rw [if_pos hlt] at h
      cases hsel : minByFirst key (availableOf procs completed t) with
      | none =>
        rw [hsel] at h
        cases hmin : minList ((procs.filter fun p => decide (p ∉ completed)).map
            Process.arrival_time) with
        | none => rw [hmin] at h; cases h
        | some na =>
          rw [hmin] at h
          exact ih _ _ _ _ _ _ h hD
      | some process =>
        rw [hsel] at h
        dsimp only at h
        refine ih _ _ _ _ _ _ h ?_
        intro p hp
        rcases mem_replaceFirst hp with hp | rfl
        · exact hD p hp
        · left
          constructor
          · dsimp only
          · dsimp only; omega
    · rw [if_neg hlt] at h
      have hout := Option.some.inj h
      subst hout
      exact hD

/-- The per-element disjunction carried through the Round Robin loop:
every process value in the working list and the ready queue either
satisfies the invariant (it has been finalized) or is untouched. -/
def rrD (s : RRState) : Prop :=
  (∀ p ∈ s.processes, procInv p ∨ untouched p) ∧
  (∀ p ∈ s.ready_queue, procInv p ∨ untouched p)

lemma rrStep_D (quantum : Int) (s : RRState) (h : rrD s) :
    rrD (rrStep quantum s) := by
  obtain ⟨hP, hQ⟩ := h
  have hq1 : ∀ p ∈ s.ready_queue ++
      newlyArrived s.processes s.process_idx s.current_time,
      procInv p ∨ untouched p := by
    intro p hp
    rcases List.mem_append.mp hp with hp | hp
    · exact hQ p hp
    · exact hP p (mem_newlyArrived hp)
  simp only [rrStep]
  cases hq : s.ready_queue ++ newlyArrived s.processes s.process_idx s.current_time with
  | nil =>
    dsimp only
    split
    · exact ⟨hP, fun p hp => absurd hp (List.not_mem_nil p)⟩
    · exact ⟨hP, fun p hp => absurd hp (List.not_mem_nil p)⟩
  | cons process rest =>
    have hDproc : procInv process ∨ untouched process :=
      hq1 process (hq ▸ List.mem_cons_self process rest)
    have hDrest : ∀ p ∈ rest, procInv p ∨ untouched p := by
      intro p hp
      exact hq1 p (hq ▸ List.mem_cons_of_mem process hp)
    dsimp only
    set p1 : Process := { process with
      remaining_time := process.remaining_time - min quantum process.remaining_time }
      with hp1
    have hDp1 : procInv p1 ∨ untouched p1 := by
      rcases hDproc with h | h
      · left; exact h
      · right; exact h
    have hmemP1 : ∀ p ∈ replaceFirst s.processes process p1,
        procInv p ∨ untouched p := by
      intro p hp
      rcases mem_replaceFirst hp with hp | rfl
      · exact hP p hp
      · exact hDp1
    split
    · constructor
      · exact hmemP1
      · intro p hp
        rcases List.mem_append.mp hp with hp | hp
        · rcases List.mem_append.mp hp with hp | hp
          · exact hDrest p hp
          · exact hmemP1 p (mem_newlyArrived hp)
        · rcases List.mem_singleton.mp hp with rfl
          exact hDp1
    · constructor
      · intro p hp
        rcases mem_replaceFirst hp with hp | rfl
        · exact hmemP1 p hp
        · left
          exact ⟨rfl, rfl⟩
      · intro p hp
        rcases List.mem_append.mp hp with hp | hp
        · exact hDrest p hp
        · exact hmemP1 p (mem_newlyArrived hp)

lemma rrLoop_D (quantum : Int) : ∀ (fuel : Nat) (s out : RRState),
    rrLoop quantum fuel s = some out → rrD s → rrD out := by
  intro fuel
  induction fuel with
  | zero => intro s out h; cases h
  | succ f ih =>
    intro s out h hD
    rw [rrLoop] at h
    by_cases hlt : s.completed < s.processes.length
    · rw [if_pos hlt] at h
      exact ih _ _ h (rrStep_D quantum s hD)
    · rw [if_neg hlt] at h
      have hout := Option.some.inj h
      subst hout
      exact hD

/-- Claim C1: in every schedule output, every completed process satisfies
`turnaround_time = completion_time - arrival_time` and `wait_time =
turnaround_time - burst_time`.  For FCFS this holds for every stats row
outright; for the fueled loops it holds, given freshly constructed inputs,
for every stats row of a finished run whose process was completed
(`Completion ≠ 0`; untouched rows keep `Completion = 0`). -/
theorem C1_turnaround_wait_invariant :
    (∀ ps : List Process, ∀ st ∈ (fcfsSchedule ps).process_stats, statInv st) ∧
    (∀ (fuel : Nat) (ps : List Process) (r : ScheduleResult),
      sjfSchedule fuel ps = some r → (∀ p ∈ ps, untouched p) →
      ∀ st ∈ r.process_stats, st.Completion ≠ 0 → statInv st) ∧
    (∀ (fuel : Nat) (ps : List Process) (r : ScheduleResult),
      prioritySchedule fuel ps = some r → (∀ p ∈ ps, untouched p) →
      ∀ st ∈ r.process_stats, st.Completion ≠ 0 → statInv st) ∧
    (∀ (fuel : Nat) (quantum : Int) (ps : List Process) (r : ScheduleResult),
      rrSchedule fuel quantum ps = some r → (∀ p ∈ ps, untouched p) →
      ∀ st ∈ r.process_stats, st.Completion ≠ 0 → statInv st) := by
  refine ⟨?_, ?_, ?_, ?_⟩
  · intro ps st hst
    rcases hr : fcfsRun [] 0 none 0 (sortByArrival ps) with ⟨fin, tl, cs⟩
    have hres : fcfsSchedule ps = ⟨tl, calculate_metrics cs fin, get_process_stats fin⟩ := by
      simp only [fcfsSchedule]
      rw [hr]
    rw [hres] at hst
    dsimp only [get_process_stats] at hst
    rcases List.mem_map.mp hst with ⟨p, hpmem, rfl⟩
    have hinv : procInv p := fcfsRun_inv _ _ _ _ _ p (by rw [hr]; exact hpmem)
    exact ⟨hinv.1, hinv.2⟩
  · intro fuel ps r hr hfresh st hst hc
    simp only [sjfSchedule] at hr
    cases hl : npLoop (fun p => p.burst_time) fuel (sortByArrival ps) [] [] 0 0 with
    | none => rw [hl] at hr; cases hr
    | some out =>
      rw [hl] at hr
      rcases out with ⟨fin, tl, cs⟩
      dsimp only at hr
      have hr' := Option.some.inj hr
      subst hr'
      have hD := npLoop_procInv (fun p => p.burst_time) fuel _ _ _ _ _ _ hl
        (fun p hp => Or.inr (hfresh p (mem_sortByArrival.mp hp)))
      dsimp only [get_process_stats] at hst
      rcases List.mem_map.mp hst with ⟨p, hpmem, rfl⟩
      rcases hD p hpmem with hinv | hunt
      · exact ⟨hinv.1, hinv.2⟩
      · exact absurd hunt.2.2 hc
  · intro fuel ps r hr hfresh st hst hc
    simp only [prioritySchedule] at hr
    cases hl : npLoop (fun p => p.priority) fuel (sortByArrival ps) [] [] 0 0 with
    | none => rw [hl] at hr; cases hr
    | some out =>
      rw [hl] at hr
      rcases out with ⟨fin, tl, cs⟩
      dsimp only at hr
      have hr' := Option.some.inj hr
      subst hr'
      have hD := npLoop_procInv (fun p => p.priority) fuel _ _ _ _ _ _ hl
        (fun p hp => Or.inr (hfresh p (mem_sortByArrival.mp hp)))
      dsimp only [get_process_stats] at hst
      rcases List.mem_map.mp hst with ⟨p, hpmem, rfl⟩
      rcases hD p hpmem with hinv | hunt
      · exact ⟨hinv.1, hinv.2⟩
      · exact absurd hunt.2.2 hc
  · intro fuel quantum ps r hr hfresh st hst hc
    simp only [rrSchedule] at hr
    cases hl : rrLoop quantum fuel ⟨sortByArrival ps, [], 0, 0, 0, none, [], 0⟩ with
    | none => rw [hl] at hr; cases hr
    | some sF =>
      rw [hl] at hr
      dsimp only at hr
      have hr' := Option.some.inj hr
      subst hr'
      have hD := rrLoop_D quantum fuel _ sF hl
        ⟨fun p hp => Or.inr (hfresh p (mem_sortByArrival.mp hp)),
          fun p hp => absurd hp (List.not_mem_nil p)⟩
      dsimp only [get_process_stats] at hst
      rcases List.mem_map.mp hst with ⟨p, hpmem, rfl⟩
      rcases hD.1 p hpmem with hinv | hunt
      · exact ⟨hinv.1, hinv.2⟩
      · exact absurd hunt.2.2 hc

/-- The result of SJF and Priority scheduling on `[pOne]`. -/
def rC1np : ScheduleResult :=
  ⟨[(1, [(0, 1)])], calculate_metrics 0 [⟨1, 0, 1, 0, 1, 0, 1, 1⟩],
    [⟨1, 0, 1, 0, 1, 1⟩]⟩

/-- The result of Round Robin scheduling on `[pOne]` with quantum 1. -/
def rC1rr : ScheduleResult :=
  ⟨[(1, [(0, 1)])], calculate_metrics 0 [⟨1, 0, 1, 0, 0, 0, 1, 1⟩],
    [⟨1, 0, 1, 0, 1, 1⟩]⟩

/-- Witness for C1 on the input `[pOne]` for all four algorithms. -/
theorem C1_witness :
    (∀ st ∈ (fcfsSchedule [pOne]).process_stats, statInv st) ∧
    (sjfSchedule 10 [pOne] = some rC1np ∧ (∀ p ∈ [pOne], untouched p) ∧
      (∀ st ∈ rC1np.process_stats, st.Completion ≠ 0 → statInv st)) ∧
    (prioritySchedule 10 [pOne] = some rC1np ∧
      (∀ st ∈ rC1np.process_stats, st.Completion ≠ 0 → statInv st)) ∧
    (rrSchedule 10 1 [pOne] = some rC1rr ∧
      (∀ st ∈ rC1rr.process_stats, st.Completion ≠ 0 → statInv st)) :=
  have hs : sjfSchedule 10 [pOne] = some rC1np := rfl
  have hpr : prioritySchedule 10 [pOne] = some rC1np := rfl
  have hrr : rrSchedule 10 1 [pOne] = some rC1rr := rfl
  have hfresh : ∀ p ∈ [pOne], untouched p := by
    intro p hp
    rcases List.mem_singleton.mp hp with rfl
    exact ⟨rfl, rfl, rfl⟩
  ⟨C1_turnaround_wait_invariant.1 [pOne],
    ⟨hs, hfresh, C1_turnaround_wait_invariant.2.1 10 [pOne] rC1np hs hfresh⟩,
    ⟨hpr, C1_turnaround_wait_invariant.2.2.1 10 [pOne] rC1np hpr hfresh⟩,
    ⟨hrr, C1_turnaround_wait_invariant.2.2.2 10 1 [pOne] rC1rr hrr hfresh⟩⟩

/-!
## Claim C3: the SJF/Priority selection policy
-/

/-- `m` is the first element of `l` attaining the minimal key: everything
before it has a strictly larger key, everything after it a larger-or-equal
key. -/
def selectedFirstMin (key : Process → Int) (l : List Process) (m : Process) : Prop :=
  ∃ l1 l2, l = l1 ++ m :: l2 ∧ (∀ x ∈ l1, key m < key x) ∧
    (∀ x ∈ l2, key m ≤ key x)

lemma foldlMin_split (key : Process → Int) :
    ∀ (as : List Process) (a : Process),
      selectedFirstMin key (a :: as)
        (as.foldl (fun best q => if key q < key best then q else best) a) := by
  intro as
  induction as with
  | nil =>
    intro a
    exact ⟨[], [], rfl, by simp, by simp⟩
  | cons q qs ih =>
    intro a
    simp only [List.foldl_cons]
    by_cases hq : key q < key a
    · rw [if_pos hq]
      obtain ⟨l1, l2, heq, h1, h2⟩ := ih q
      have hmq : key (qs.foldl (fun best q => if key q < key best then q else best) q)
          ≤ key q := by
        cases l1 with
        | nil =>
          have : q = qs.foldl (fun best q => if key q < key best then q else best) q := by
            have := heq
            simp only [List.nil_append] at this
            exact (List.cons.injEq _ _ _ _ ▸ this).1
          rw [← this]
        | cons y t =>
          have hy : y = q := by
            have := heq
            simp only [List.cons_append] at this
            exact ((List.cons.injEq _ _ _ _ ▸ this).1).symm
          have hlt := h1 y (List.mem_cons_self y t)
          rw [hy] at hlt
          exact le_of_lt hlt
      refine ⟨a :: l1, l2, ?_, ?_, h2⟩
      · rw [List.cons_append, ← heq]
      · intro x hx
        rcases List.mem_cons.mp hx with rfl | hx
        · exact lt_of_le_of_lt hmq hq
        · exact h1 x hx
    · rw [if_neg hq]
      obtain ⟨l1, l2, heq, h1, h2⟩ := ih a
      cases l1 with
      | nil =>
        simp only [List.nil_append] at heq
        have ha : a = qs.foldl (fun best q => if key q < key best then q else best) a :=
          (List.cons.injEq _ _ _ _ ▸ heq).1
        have hqs : qs = l2 := (List.cons.injEq _ _ _ _ ▸ heq).2
        refine ⟨[], q :: l2, ?_, by simp, ?_⟩
        · simp only [List.nil_append, ← hqs, ← ha]
        · intro x hx
          rcases List.mem_cons.mp hx with rfl | hx
          · rw [← ha]; exact le_of_not_lt hq
          · exact h2 x hx
      | cons y t =>
        simp only [List.cons_append] at heq
        have hy : a = y := (List.cons.injEq _ _ _ _ ▸ heq).1
        have hqs : qs = t ++ qs.foldl (fun best q => if key q < key best then q else best) a :: l2 :=
          (List.cons.injEq _ _ _ _ ▸ heq).2
        refine ⟨a :: q :: t, l2, ?_, ?_, h2⟩
        · rw [List.cons_append, List.cons_append, ← hqs]
        · intro x hx
          have hma : key (qs.foldl (fun best q => if key q < key best then q else best) a)
              < key a := hy ▸ h1 y (List.mem_cons_self y t)
          rcases List.mem_cons.mp hx with rfl | hx
          · exact hma
          · rcases List.mem_cons.mp hx with rfl | hx
            · exact lt_of_lt_of_le hma (le_of_not_lt hq)
            · exact h1 x (List.mem_cons_of_mem y hx)

lemma minByFirst_spec {key : Process → Int} {l : List Process} {m : Process}
    (h : minByFirst key l = some m) : selectedFirstMin key l m := by
  cases l with
  | nil => cases h
  | cons a as =>
    have hm := Option.some.inj h
    rw [← hm]
    exact foldlMin_split key as a

lemma selectedFirstMin_mem {key : Process → Int} {l : List Process} {m : Process}
    (h : selectedFirstMin key l m) : m ∈ l := by
  obtain ⟨l1, l2, rfl, -, -⟩ := h
  exact List.mem_append.mpr (Or.inr (List.mem_cons_self m l2))

lemma selectedFirstMin_le {key : Process → Int} {l : List Process} {m : Process}
    (h : selectedFirstMin key l m) : ∀ x ∈ l, key m ≤ key x := by
  obtain ⟨l1, l2, rfl, h1, h2⟩ := h
  intro x hx
  rcases List.mem_append.mp hx with hx | hx
  · exact le_of_lt (h1 x hx)
  · rcases List.mem_cons.mp hx with rfl | hx
    · exact le_refl _
    · exact h2 x hx

/-- The selection property shared by SJF and Priority for a generic key. -/
lemma selection_spec (key : Process → Int) (procs completed : List Process)
    (t : Int) (m : Process)
    (h : minByFirst key (availableOf procs completed t) = some m) :
    m ∈ availableOf procs completed t ∧
    (∀ x ∈ availableOf procs completed t, key m ≤ key x) ∧
    selectedFirstMin key (availableOf procs completed t) m ∧
    (List.Pairwise byArrival procs →
      ∀ x ∈ availableOf procs completed t, key x = key m →
        m.arrival_time ≤ x.arrival_time) := by
  have hsel := minByFirst_spec h
  refine ⟨selectedFirstMin_mem hsel, selectedFirstMin_le hsel, hsel, ?_⟩
  intro hpair x hx hkey
  have hpavail : List.Pairwise byArrival (availableOf procs completed t) :=
    List.Pairwise.sublist (List.filter_sublist procs) hpair
  obtain ⟨l1, l2, heq, h1, h2⟩ := hsel
  rw [heq] at hpavail hx
  rcases List.mem_append.mp hx with hx | hx
  · exact absurd hkey (by exact ne_of_gt (h1 x hx))
  · rcases List.mem_cons.mp hx with rfl | hx
    · exact le_refl _
    · exact (List.pairwise_cons.mp (List.pairwise_append.mp hpavail).2.1).1 x hx

/-- First tie process of the C3 example (pid 1, arrival 0, burst 4,
priority 7). -/
def pTie1 : Process := ⟨1, 0, 4, 7, 4, 0, 0, 0⟩

/-- Second tie process of the C3 example, identical to `pTie1` except for
its pid. -/
def pTie2 : Process := ⟨2, 0, 4, 7, 4, 0, 0, 0⟩

/-- Claim C3: at every selection step SJF picks from the available list
(arrived and not completed) the first process with minimal `burst_time`,
and Priority the first with minimal `priority`; since the working list is
sorted by arrival (stably), ties are broken by earliest arrival and then by
input order.  Concretely, two processes with equal arrival and equal
burst/priority are scheduled in input order. -/
theorem C3_selection_policy :
    (∀ (procs completed : List Process) (t : Int) (m : Process),
      minByFirst (fun p => p.burst_time) (availableOf procs completed t) = some m →
      m ∈ availableOf procs completed t ∧
      (∀ x ∈ availableOf procs completed t, m.burst_time ≤ x.burst_time) ∧
      selectedFirstMin (fun p => p.burst_time) (availableOf procs completed t) m ∧
      (List.Pairwise byArrival procs →
        ∀ x ∈ availableOf procs completed t, x.burst_time = m.burst_time →
          m.arrival_time ≤ x.arrival_time)) ∧
    (∀ (procs completed : List Process) (t : Int) (m : Process),
      minByFirst (fun p => p.priority) (availableOf procs completed t) = some m →
      m ∈ availableOf procs completed t ∧
      (∀ x ∈ availableOf procs completed t, m.priority ≤ x.priority) ∧
      selectedFirstMin (fun p => p.priority) (availableOf procs completed t) m ∧
      (List.Pairwise byArrival procs →
        ∀ x ∈ availableOf procs completed t, x.priority = m.priority →
          m.arrival_time ≤ x.arrival_time)) ∧
    ((sjfSchedule 10 [pTie1, pTie2]).map ScheduleResult.execution =
      some [(1, [(0, 4)]), (2, [(4, 8)])]) ∧
    ((prioritySchedule 10 [pTie1, pTie2]).map ScheduleResult.execution =
      some [(1, [(0, 4)]), (2, [(4, 8)])]) :=
  ⟨fun procs completed t m h => selection_spec (fun p => p.burst_time) procs completed t m h,
    fun procs completed t m h => selection_spec (fun p => p.priority) procs completed t m h,
    by decide, by decide⟩

/-- Witness for C3 at the two-process tie example. -/
theorem C3_witness :
    (minByFirst (fun p => p.burst_time) (availableOf [pTie1, pTie2] [] 0) =
      some pTie1) ∧
    List.Pairwise byArrival [pTie1, pTie2] ∧
    (pTie1 ∈ availableOf [pTie1, pTie2] [] 0 ∧
      (∀ x ∈ availableOf [pTie1, pTie2] [] 0, pTie1.burst_time ≤ x.burst_time) ∧
      selectedFirstMin (fun p => p.burst_time) (availableOf [pTie1, pTie2] [] 0)
        pTie1 ∧
      (List.Pairwise byArrival [pTie1, pTie2] →
        ∀ x ∈ availableOf [pTie1, pTie2] [] 0, x.burst_time = pTie1.burst_time →
          pTie1.arrival_time ≤ x.arrival_time)) :=
  have hmin : minByFirst (fun p => p.burst_time) (availableOf [pTie1, pTie2] [] 0) =
      some pTie1 := by decide
  have hpair : List.Pairwise byArrival [pTie1, pTie2] := by
    refine List.Pairwise.cons ?_ (List.Pairwise.cons ?_ List.Pairwise.nil)
    · intro q hq
      rcases List.mem_singleton.mp hq with rfl
      exact le_refl _
    · intro q hq
      cases hq
  ⟨hmin, hpair,
    C3_selection_policy.1 [pTie1, pTie2] [] 0 pTie1 hmin⟩

/-!
## Claim C10: the order of the returned process statistics
-/

lemma replaceFirst_map (f : Process → Int) {a b : Process} (hf : f a = f b) :
    ∀ l : List Process, (replaceFirst l a b).map f = l.map f := by
  intro l
  induction l with
  | nil => rfl
  | cons x xs ih =>
    simp only [replaceFirst]
    by_cases hx : x = a
    · subst hx
      rw [if_pos rfl, List.map_cons, List.map_cons, hf]
    · rw [if_neg hx, List.map_cons, List.map_cons, ih]

lemma fcfsRun_map (f : Process → Int)
    (hf : ∀ a b : Process, a.pid = b.pid → a.arrival_time = b.arrival_time →
      f a = f b) :
    ∀ (ps : List Process) (tl : Timeline) (t : Int) (lp : Option Int) (cs : Nat),
      ((fcfsRun tl t lp cs ps).1).map f = ps.map f := by
  intro ps
  induction ps with
  | nil => intro tl t lp cs; rfl
  | cons q qs ih =>
    intro tl t lp cs
    simp only [fcfsRun, List.map_cons]
    rw [ih]
    congr 1
    exact hf _ q rfl rfl

lemma npLoop_map (key : Process → Int) (f : Process → Int)
    (hf : ∀ a b : Process, a.pid = b.pid → a.arrival_time = b.arrival_time →
      f a = f b) :
    ∀ (fuel : Nat) (procs completed : List Process) (tl : Timeline) (cs : Nat)
      (t : Int) (out : List Process × Timeline × Nat),
      npLoop key fuel procs completed tl cs t = some out →
      out.1.map f = procs.map f := by
  intro fuel
  induction fuel with
  | zero => intro _ _ _ _ _ out h; cases h
  | succ fl ih =>
    intro procs completed tl cs t out h
    rw [npLoop] at h
    by_cases hlt : completed.length < procs.length
    · rw [if_pos hlt] at h
      cases hsel : minByFirst key (availableOf procs completed t) with
      | none =>
        rw [hsel] at h
        cases hmin : minList ((procs.filter fun p => decide (p ∉ completed)).map
            Process.arrival_time) with
        | none => rw [hmin] at h; cases h
        | some na =>
          rw [hmin] at h
          exact ih _ _ _ _ _ _ h
      | some process =>
        rw [hsel] at h
        dsimp only at h
        rw [ih _ _ _ _ _ _ h]
        exact replaceFirst_map f (hf _ _ (by rfl) (by rfl)) procs
    · rw [if_neg hlt] at h
      have hout := Option.some.inj h
      subst hout
      rfl

lemma rrStep_map (quantum : Int) (f : Process → Int)
    (hf : ∀ a b : Process, a.pid = b.pid → a.arrival_time = b.arrival_time →
      f a = f b) (s : RRState) :
    (rrStep quantum s).processes.map f = s.processes.map f := by
  simp only [rrStep]
  cases hq : s.ready_queue ++ newlyArrived s.processes s.process_idx s.current_time with
  | nil =>
    dsimp only
    split <;> rfl
  | cons process rest =>
    dsimp only
    split
    · exact replaceFirst_map f (hf _ _ (by rfl) (by rfl)) s.processes
    · exact (replaceFirst_map f (hf _ _ (by rfl) (by rfl)) _).trans
        (replaceFirst_map f (hf _ _ (by rfl) (by rfl)) s.processes)

lemma rrLoop_map (quantum : Int) (f : Process → Int)
    (hf : ∀ a b : Process, a.pid = b.pid → a.arrival_time = b.arrival_time →
      f a = f b) :
    ∀ (fuel : Nat) (s out : RRState), rrLoop quantum fuel s = some out →
      out.processes.map f = s.processes.map f := by
  intro fuel
  induction fuel with
  | zero => intro s out h; cases h
  | succ fl ih =>
    intro s out h
    rw [rrLoop] at h
    by_cases hlt : s.completed < s.processes.length
    · rw [if_pos hlt] at h
      rw [ih _ _ h]
      exact rrStep_map quantum f hf s
    · rw [if_neg hlt] at h
      have hout := Option.some.inj h
      subst hout
      rfl

lemma stats_map_PID (l : List Process) :
    (get_process_stats l).map ProcessStat.PID = l.map Process.pid := by
  simp [get_process_stats, List.map_map]

lemma stats_map_Arrival (l : List Process) :
    (get_process_stats l).map ProcessStat.Arrival = l.map Process.arrival_time := by
  simp [get_process_stats, List.map_map]

lemma sortByArrival_pairwise (ps : List Process) :
    List.Pairwise byArrival (sortByArrival ps) :=
  List.sorted_insertionSort byArrival ps

lemma pairwise_arrival {l : List Process} (h : List.Pairwise byArrival l) :
    List.Pairwise (· ≤ ·) (l.map Process.arrival_time) :=
  List.pairwise_map.mpr h

/-- Claim C10: for every algorithm, `process_stats` is ordered like the
arrival-sorted working copy: the listed pids are exactly the pids of the
stable arrival sort of the input (not of the caller's original order or of
completion order), and the listed arrival times are nondecreasing. -/
theorem C10_stats_order :
    (∀ ps : List Process,
      (fcfsSchedule ps).process_stats.map ProcessStat.PID =
        (sortByArrival ps).map Process.pid ∧
      List.Pairwise (· ≤ ·)
        ((fcfsSchedule ps).process_stats.map ProcessStat.Arrival)) ∧
    (∀ (fuel : Nat) (ps : List Process) (r : ScheduleResult),
      sjfSchedule fuel ps = some r →
      r.process_stats.map ProcessStat.PID = (sortByArrival ps).map Process.pid ∧
      List.Pairwise (· ≤ ·) (r.process_stats.map ProcessStat.Arrival)) ∧
    (∀ (fuel : Nat) (ps : List Process) (r : ScheduleResult),
      prioritySchedule fuel ps = some r →
      r.process_stats.map ProcessStat.PID = (sortByArrival ps).map Process.pid ∧
      List.Pairwise (· ≤ ·) (r.process_stats.map ProcessStat.Arrival)) ∧
    (∀ (fuel : Nat) (quantum : Int) (ps : List Process) (r : ScheduleResult),
      rrSchedule fuel quantum ps = some r →
      r.process_stats.map ProcessStat.PID = (sortByArrival ps).map Process.pid ∧
      List.Pairwise (· ≤ ·) (r.process_stats.map ProcessStat.Arrival)) := by
  have hfpid : ∀ a b : Process, a.pid = b.pid → a.arrival_time = b.arrival_time →
      a.pid = b.pid := fun _ _ h _ => h
  have hfarr : ∀ a b : Process, a.pid = b.pid → a.arrival_time = b.arrival_time →
      a.arrival_time = b.arrival_time := fun _ _ _ h => h
  refine ⟨?_, ?_, ?_, ?_⟩
  · intro ps
    rcases hr : fcfsRun [] 0 none 0 (sortByArrival ps) with ⟨fin, tl, cs⟩
    have hres : fcfsSchedule ps =
        ⟨tl, calculate_metrics cs fin, get_process_stats fin⟩ := by
      simp only [fcfsSchedule]
      rw [hr]
    have hfin1 : fin.map Process.pid = (sortByArrival ps).map Process.pid := by
      have := fcfsRun_map Process.pid hfpid (sortByArrival ps) [] 0 none 0
      rw [hr] at this
      exact this
    have hfin2 : fin.map Process.arrival_time =
        (sortByArrival ps).map Process.arrival_time := by
      have := fcfsRun_map Process.arrival_time hfarr (sortByArrival ps) [] 0 none 0
      rw [hr] at this
      exact this
    rw [hres]
    dsimp only
    rw [stats_map_PID, stats_map_Arrival, hfin1, hfin2]
    exact ⟨rfl, pairwise_arrival (sortByArrival_pairwise ps)⟩
  · intro fuel ps r hr
    simp only [sjfSchedule] at hr
    cases hl : npLoop (fun p => p.burst_time) fuel (sortByArrival ps) [] [] 0 0 with
    | none => rw [hl] at hr; cases hr
    | some out =>
      rw [hl] at hr
      rcases out with ⟨fin, tl, cs⟩
      dsimp only at hr
      have hr' := Option.some.inj hr
      subst hr'
      have h1 := npLoop_map (fun p => p.burst_time) Process.pid hfpid _ _ _ _ _ _ _ hl
      have h2 := npLoop_map (fun p => p.burst_time) Process.arrival_time hfarr _ _ _ _ _ _ _ hl
      dsimp only
      rw [stats_map_PID, stats_map_Arrival, h1, h2]
      exact ⟨rfl, pairwise_arrival (sortByArrival_pairwise ps)⟩
  · intro fuel ps r hr
    simp only [prioritySchedule] at hr
    cases hl : npLoop (fun p => p.priority) fuel (sortByArrival ps) [] [] 0 0 with
    | none => rw [hl] at hr; cases hr
    | some out =>
      rw [hl] at hr
      rcases out with ⟨fin, tl, cs⟩
      dsimp only at hr
      have hr' := Option.some.inj hr
      subst hr'
      have h1 := npLoop_map (fun p => p.priority) Process.pid hfpid _ _ _ _ _ _ _ hl
      have h2 := npLoop_map (fun p => p.priority) Process.arrival_time hfarr _ _ _ _ _ _ _ hl
      dsimp only
      rw [stats_map_PID, stats_map_Arrival, h1, h2]
      exact ⟨rfl, pairwise_arrival (sortByArrival_pairwise ps)⟩
  · intro fuel quantum ps r hr
    simp only [rrSchedule] at hr
    cases hl : rrLoop quantum fuel ⟨sortByArrival ps, [], 0, 0, 0, none, [], 0⟩ with
    | none => rw [hl] at hr; cases hr
    | some sF =>
      rw [hl] at hr
      dsimp only at hr
      have hr' := Option.some.inj hr
      subst hr'
      have h1 := rrLoop_map quantum Process.pid hfpid _ _ _ hl
      have h2 := rrLoop_map quantum Process.arrival_time hfarr _ _ _ hl
      dsimp only at h1 h2 ⊢
      rw [stats_map_PID, stats_map_Arrival, h1, h2]
      exact ⟨rfl, pairwise_arrival (sortByArrival_pairwise ps)⟩

/-- Witness for C10 on the input `[pOne]` for the three fueled algorithms
and FCFS. -/
theorem C10_witness :
    (sjfSchedule 10 [pOne] = some rC1np) ∧
    (prioritySchedule 10 [pOne] = some rC1np) ∧
    (rrSchedule 10 1 [pOne] = some rC1rr) ∧
    ((fcfsSchedule [pOne]).process_stats.map ProcessStat.PID =
        (sortByArrival [pOne]).map Process.pid ∧
      List.Pairwise (· ≤ ·)
        ((fcfsSchedule [pOne]).process_stats.map ProcessStat.Arrival)) ∧
    (rC1np.process_stats.map ProcessStat.PID =
        (sortByArrival [pOne]).map Process.pid ∧
      List.Pairwise (· ≤ ·) (rC1np.process_stats.map ProcessStat.Arrival)) ∧
    (rC1rr.process_stats.map ProcessStat.PID =
        (sortByArrival [pOne]).map Process.pid ∧
      List.Pairwise (· ≤ ·) (rC1rr.process_stats.map ProcessStat.Arrival)) :=
  have hs : sjfSchedule 10 [pOne] = some rC1np := rfl
  have hpr : prioritySchedule 10 [pOne] = some rC1np := rfl
  have hrr : rrSchedule 10 1 [pOne] = some rC1rr := rfl
  ⟨hs, hpr, hrr, C10_stats_order.1 [pOne],
    C10_stats_order.2.1 10 [pOne] rC1np hs,
    C10_stats_order.2.2.2 10 1 [pOne] rC1rr hrr⟩

/-!
## Claim C9: termination
-/

lemma foldl_intmin_le_init : ∀ (xs : List Int) (init : Int),
    xs.foldl min init ≤ init := by
  intro xs
  induction xs with
  | nil => intro init; simp
  | cons x xs ih =>
    intro init
    simp only [List.foldl_cons]
    exact le_trans (ih (min init x)) (min_le_left _ _)

lemma foldl_intmin_le_mem {y : Int} : ∀ (xs : List Int) (init : Int), y ∈ xs →
    xs.foldl min init ≤ y := by
  intro xs
  induction xs with
  | nil => intro init h; cases h
  | cons x xs ih =>
    intro init h
    rcases List.mem_cons.mp h with rfl | h
    · simp only [List.foldl_cons]
      exact le_trans (foldl_intmin_le_init xs _) (min_le_right _ _)
    · simp only [List.foldl_cons]
      exact ih _ h

lemma foldl_intmin_mem_or : ∀ (xs : List Int) (init : Int),
    xs.foldl min init = init ∨ xs.foldl min init ∈ xs := by
  intro xs
  induction xs with
  | nil => intro init; exact Or.inl rfl
  | cons x xs ih =>
    intro init
    simp only [List.foldl_cons]
    rcases ih (min init x) with h | h
    · rw [h]
      rcases min_choice init x with h' | h'
      · exact Or.inl h'
      · right
        rw [h']
        exact List.mem_cons_self x xs
    · exact Or.inr (List.mem_cons_of_mem x h)

lemma minList_eq_none {l : List Int} : minList l = none ↔ l = [] := by
  cases l <;> simp [minList]

lemma minList_mem {l : List Int} {m : Int} (h : minList l = some m) : m ∈ l := by
  cases l with
  | nil => cases h
  | cons x xs =>
    have hm := Option.some.inj h
    rcases foldl_intmin_mem_or xs x with h' | h'
    · rw [← hm, h']
      exact List.mem_cons_self x xs
    · rw [← hm]
      exact List.mem_cons_of_mem x h'

lemma minByFirst_isSome {key : Process → Int} {l : List Process} (h : l ≠ []) :
    (minByFirst key l).isSome := by
  cases l with
  | nil => exact absurd rfl h
  | cons a as => rfl

lemma length_replaceFirst (a b : Process) : ∀ l : List Process,
    (replaceFirst l a b).length = l.length := by
  intro l
  induction l with
  | nil => rfl
  | cons x xs ih =>
    simp only [replaceFirst]
    by_cases hx : x = a
    · rw [if_pos hx, List.length_cons, List.length_cons]
    · rw [if_neg hx, List.length_cons, List.length_cons, ih]

/-- One non-preemptive selection step plus the preceding idle jump (when
needed) always completes one more process; by induction the loop finishes
provided the pids are distinct (so that dataclass value equality cannot
conflate two live processes with a completed one). -/
lemma npLoop_terminates (key : Process → Int) :
    ∀ (k : Nat) (procs completed : List Process) (tl : Timeline) (cs : Nat)
      (t : Int),
      (procs.map Process.pid).Nodup →
      procs.length - completed.length ≤ k →
      ∃ fuel, (npLoop key fuel procs completed tl cs t).isSome := by
  intro k
  induction k with
  | zero =>
    intro procs completed tl cs t hnd hk
    refine ⟨1, ?_⟩
    rw [npLoop, if_neg (by omega)]
    rfl
  | succ k ih =>
    intro procs completed tl cs t hnd hk
    by_cases hlt : completed.length < procs.length
    · have hsel_step : ∀ (t' : Int) (process : Process),
          minByFirst key (availableOf procs completed t') = some process →
          ∃ fuel, (npLoop key (fuel + 1) procs completed tl cs t').isSome := by
        intro t' process hsel
        have hnd' : ((replaceFirst procs process
            { process with
              wait_time := t' - process.arrival_time
              completion_time := t' + process.burst_time
              turnaround_time := t' + process.burst_time - process.arrival_time
              }).map Process.pid).Nodup := by
          rw [replaceFirst_map Process.pid (by rfl) procs]
          exact hnd
        obtain ⟨fuel, hf⟩ := ih
          (replaceFirst procs process
            { process with
              wait_time := t' - process.arrival_time
              completion_time := t' + process.burst_time
              turnaround_time := t' + process.burst_time - process.arrival_time })
          (completed ++ [{ process with
              wait_time := t' - process.arrival_time
              completion_time := t' + process.burst_time
              turnaround_time := t' + process.burst_time - process.arrival_time }])
          (addInterval tl process.pid (t', t' + process.burst_time))
          (if 1 < ((addInterval tl process.pid
              (t', t' + process.burst_time)).map Prod.fst).length ∧
              ((addInterval tl process.pid (t', t' + process.burst_time)).map
                Prod.fst).getD
                (((addInterval tl process.pid (t', t' + process.burst_time)).map
                  Prod.fst).length - 2) 0 ≠ process.pid
            then cs + 1 else cs)
          (t' + process.burst_time) hnd'
          (by
            rw [length_replaceFirst]
            simp only [List.length_append, List.length_cons, List.length_nil]
            omega)
        refine ⟨fuel, ?_⟩
        rw [npLoop, if_pos hlt, hsel]
        exact hf
      cases hsel : minByFirst key (availableOf procs completed t) with
      | some process =>
        obtain ⟨fuel, hf⟩ := hsel_step t process hsel
        exact ⟨fuel + 1, hf⟩
      | none =>
        -- the available list is empty: the loop jumps to the next arrival
        have hproc_nodup : procs.Nodup := hnd.of_map
        have hun : (procs.filter fun p => decide (p ∉ completed)) ≠ [] := by
          intro hempty
          have hsub : ∀ p ∈ procs, p ∈ completed := by
            intro p hp
            by_contra hnc
            have : p ∈ procs.filter fun p => decide (p ∉ completed) :=
              List.mem_filter.mpr ⟨hp, by simpa using hnc⟩
            rw [hempty] at this
            cases this
          have := (List.subperm_of_subset hproc_nodup hsub).length_le
          omega
        obtain ⟨na, hna⟩ : ∃ na, minList ((procs.filter fun p =>
            decide (p ∉ completed)).map Process.arrival_time) = some na := by
          cases hm : minList ((procs.filter fun p =>
              decide (p ∉ completed)).map Process.arrival_time) with
          | none =>
            rw [minList_eq_none, List.map_eq_nil_iff] at hm
            exact absurd hm hun
          | some na => exact ⟨na, rfl⟩
        obtain ⟨x, hxf, hxa⟩ := List.mem_map.mp (minList_mem hna)
        have hxavail : x ∈ availableOf procs completed na := by
          obtain ⟨hxp, hxnc⟩ := List.mem_filter.mp hxf
          refine List.mem_filter.mpr ⟨hxp, ?_⟩
          simp only [decide_eq_true_eq] at hxnc ⊢
          exact ⟨le_of_eq hxa, hxnc⟩
        have havail : availableOf procs completed na ≠ [] :=
          List.ne_nil_of_mem hxavail
        cases hsel2 : minByFirst key (availableOf procs completed na) with
        | none =>
          have : (minByFirst key (availableOf procs completed na)).isSome :=
            minByFirst_isSome havail
          rw [hsel2] at this
          cases this
        | some process2 =>
          obtain ⟨fuel, hf⟩ := hsel_step na process2 hsel2
          refine ⟨fuel + 2, ?_⟩
          rw [npLoop, if_pos hlt, hsel, hna]
          exact hf
    · refine ⟨1, ?_⟩
      rw [npLoop, if_neg hlt]
      rfl

lemma take_length_takeWhile (P : Process → Bool) : ∀ l : List Process,
    l.take (l.takeWhile P).length = l.takeWhile P := by
  intro l
  induction l with
  | nil => rfl
  | cons x xs ih =>
    rw [List.takeWhile_cons]
    by_cases hP : P x
    · rw [if_pos hP, List.length_cons, List.take_succ_cons, ih]
    · rw [if_neg hP, List.length_nil, List.take_zero]

lemma drop_length_takeWhile (P : Process → Bool) : ∀ l : List Process,
    l.drop (l.takeWhile P).length = l.dropWhile P := by
  intro l
  induction l with
  | nil => rfl
  | cons x xs ih =>
    rw [List.takeWhile_cons, List.dropWhile_cons]
    by_cases hP : P x
    · rw [if_pos hP, if_pos hP, List.length_cons, List.drop_succ_cons, ih]
    · rw [if_neg hP, if_neg hP, List.length_nil, List.drop_zero]

lemma take_newly_split (procs : List Process) (idx : Nat) (t : Int) :
    procs.take (idx + (newlyArrived procs idx t).length) =
      procs.take idx ++ newlyArrived procs idx t := by
  rw [List.take_add]
  congr 1
  exact take_length_takeWhile _ _

lemma drop_newly_split (procs : List Process) (idx : Nat) (t : Int) :
    procs.drop idx = newlyArrived procs idx t ++
      procs.drop (idx + (newlyArrived procs idx t).length) := by
  have h1 : procs.drop (idx + (newlyArrived procs idx t).length) =
      (procs.drop idx).drop (newlyArrived procs idx t).length := by
    rw [List.drop_drop]
  rw [h1]
  unfold newlyArrived
  rw [drop_length_takeWhile]
  exact (List.takeWhile_append_dropWhile _ _).symm

lemma mem_take_mono {l : List Process} {m n : Nat} (h : m ≤ n) {x : Process}
    (hx : x ∈ l.take m) : x ∈ l.take n := by
  have heq : l.take m = (l.take n).take m := by
    rw [List.take_take, min_eq_left h]
  rw [heq] at hx
  exact (List.take_sublist _ _).mem hx

lemma count_take_mono {l : List Process} {m n : Nat} (h : m ≤ n) (u : Process) :
    (l.take m).count u ≤ (l.take n).count u := by
  have heq : l.take m = (l.take n).take m := by
    rw [List.take_take, min_eq_left h]
  rw [heq]
  exact (List.take_sublist _ _).count_le u

lemma mem_replaceFirst_self (b : Process) : ∀ (l : List Process) (a : Process),
    a ∈ l → b ∈ replaceFirst l a b := by
  intro l
  induction l with
  | nil => intro a h; cases h
  | cons x xs ih =>
    intro a ha
    simp only [replaceFirst]
    by_cases hx : x = a
    · rw [if_pos hx]
      exact List.mem_cons_self b xs
    · rw [if_neg hx]
      have ha' : a ∈ xs := by
        rcases List.mem_cons.mp ha with h | h
        · exact absurd h.symm hx
        · exact h
      exact List.mem_cons_of_mem x (ih a ha')

lemma count_cons_eq (u y : Process) (l : List Process) :
    (y :: l).count u = l.count u + if u = y then 1 else 0 := by
  by_cases h : u = y
  · subst h
    simp [List.count_cons]
  · simp [List.count_cons, h, Ne.symm h]

lemma count_replaceFirst (u b : Process) : ∀ (l : List Process) (a : Process),
    a ∈ l →
    (replaceFirst l a b).count u + (if u = a then 1 else 0) =
      l.count u + (if u = b then 1 else 0) := by
  intro l
  induction l with
  | nil => intro a h; cases h
  | cons x xs ih =>
    intro a ha
    simp only [replaceFirst]
    by_cases hx : x = a
    · subst hx
      rw [if_pos rfl]
      simp only [count_cons_eq]
      split_ifs <;> omega
    · rw [if_neg hx]
      have ha' : a ∈ xs := by
        rcases List.mem_cons.mp ha with h | h
        · exact absurd h.symm hx
        · exact h
      have h := ih a ha'
      simp only [count_cons_eq]
      revert h
      split_ifs <;> intro h <;> omega

lemma drop_replaceFirst (b : Process) : ∀ (l : List Process) (n : Nat)
    (a : Process), a ∈ l.take n → (replaceFirst l a b).drop n = l.drop n := by
  intro l
  induction l with
  | nil => intro n a _; rfl
  | cons x xs ih =>
    intro n a ha
    cases n with
    | zero => simp at ha
    | succ m =>
      rw [List.take_succ_cons] at ha
      simp only [replaceFirst]
      by_cases hx : x = a
      · rw [if_pos hx, List.drop_succ_cons, List.drop_succ_cons]
      · rw [if_neg hx, List.drop_succ_cons, List.drop_succ_cons]
        have ha' : a ∈ xs.take m := by
          rcases List.mem_cons.mp ha with h | h
          · exact absurd h.symm hx
          · exact h
        exact ih m a ha'

lemma take_replaceFirst (b : Process) : ∀ (l : List Process) (n : Nat)
    (a : Process), a ∈ l.take n →
    (replaceFirst l a b).take n = replaceFirst (l.take n) a b := by
  intro l
  induction l with
  | nil => intro n a _; simp [replaceFirst]
  | cons x xs ih =>
    intro n a ha
    cases n with
    | zero => simp at ha
    | succ m =>
      rw [List.take_succ_cons] at ha
      simp only [replaceFirst, List.take_succ_cons]
      by_cases hx : x = a
      · rw [if_pos hx, List.take_succ_cons, if_pos hx]
      · rw [if_neg hx, List.take_succ_cons, if_neg hx]
        have ha' : a ∈ xs.take m := by
          rcases List.mem_cons.mp ha with h | h
          · exact absurd h.symm hx
          · exact h
        rw [ih m a ha']

/-- Weight of one process for the Round Robin termination measure. -/
def wRem (p : Process) : Nat := p.remaining_time.natAbs + 1

/-- Termination measure of a Round Robin state: total weight of the ready
queue plus (weight + 1) for every not-yet-enqueued process. -/
def rrMeasure (s : RRState) : Nat :=
  (s.ready_queue.map wRem).sum +
    ((s.processes.drop s.process_idx).map (fun p => wRem p + 1)).sum

/-- Loop invariant of the Round Robin simulation: the arrival cursor is in
range, the completed/queued/pending accounting adds up, and every queued
value occurs at least as often among the already-scanned prefix of the
working list as in the queue. -/
def RRInv (s : RRState) : Prop :=
  s.process_idx ≤ s.processes.length ∧
  s.completed + s.ready_queue.length +
    (s.processes.length - s.process_idx) = s.processes.length ∧
  ∀ u : Process, s.ready_queue.count u ≤ (s.processes.take s.process_idx).count u

lemma sum_map_wplus (X : List Process) :
    (X.map (fun p => wRem p + 1)).sum = (X.map wRem).sum + X.length := by
  induction X with
  | nil => rfl
  | cons x xs ih =>
    simp only [List.map_cons, List.sum_cons, List.length_cons, ih]
    omega

lemma drop_eq_getD_cons {l : List Process} {n : Nat} (h : n < l.length) :
    l.drop n = l.getD n default :: l.drop (n + 1) := by
  rw [List.getD_eq_getElem l default h]
  exact List.drop_eq_getElem_cons h

lemma rrStep_jump (quantum : Int) (s : RRState) (hInv : RRInv s)
    (hlt : s.completed < s.processes.length)
    (hqe : s.ready_queue ++ newlyArrived s.processes s.process_idx s.current_time
      = []) :
    RRInv (rrStep quantum s) ∧ rrMeasure (rrStep quantum s) = rrMeasure s ∧
    (rrStep quantum s).completed = s.completed ∧
    (rrStep quantum s).processes = s.processes ∧
    (rrStep quantum s).ready_queue ++
      newlyArrived (rrStep quantum s).processes (rrStep quantum s).process_idx
        (rrStep quantum s).current_time ≠ [] := by
  obtain ⟨hq0, hn0⟩ := List.append_eq_nil.mp hqe
  obtain ⟨hidx, hcnt, hqt⟩ := hInv
  have hlen0 : (newlyArrived s.processes s.process_idx s.current_time).length = 0 := by
    rw [hn0]; rfl
  have hql0 : s.ready_queue.length = 0 := by rw [hq0]; rfl
  have hidxlt : s.process_idx + (newlyArrived s.processes s.process_idx
      s.current_time).length < s.processes.length := by omega
  simp only [rrStep]
  rw [hqe]
  dsimp only
  rw [if_pos hidxlt]
  have hd : s.processes.drop (s.process_idx +
      (newlyArrived s.processes s.process_idx s.current_time).length) =
      s.processes.getD (s.process_idx +
        (newlyArrived s.processes s.process_idx s.current_time).length) default ::
      s.processes.drop (s.process_idx +
        (newlyArrived s.processes s.process_idx s.current_time).length + 1) :=
    drop_eq_getD_cons hidxlt
  refine ⟨⟨by dsimp only; omega,
    by dsimp only; simp only [List.length_nil]; omega, ?_⟩, ?_, rfl, rfl, ?_⟩
  · intro u
    dsimp only
    simp
  · simp [rrMeasure, hq0, hlen0]
  · dsimp only
    simp only [List.nil_append, hlen0, Nat.add_zero]
    have hidxlt2 : s.process_idx < s.processes.length := by omega
    have hd2 := drop_eq_getD_cons (l := s.processes) (n := s.process_idx) hidxlt2
    unfold newlyArrived
    rw [hd2, List.takeWhile_cons, if_pos (by simp)]
    exact List.cons_ne_nil _ _

lemma rrStep_exec (quantum : Int) (hq : 1 ≤ quantum) (s : RRState)
    (process : Process) (rest : List Process) (hInv : RRInv s)
    (hqe : s.ready_queue ++ newlyArrived s.processes s.process_idx s.current_time
      = process :: rest) :
    RRInv (rrStep quantum s) ∧ rrMeasure (rrStep quantum s) + 1 ≤ rrMeasure s := by
  obtain ⟨procs, queue, t, completed, idx, lastp, tl, cs⟩ := s
  obtain ⟨hidx, hcnt, hqt⟩ := hInv
  dsimp only at hqe hidx hcnt hqt
  -- abbreviations
  set N := newlyArrived procs idx t with hN
  set idx1 := idx + N.length with hidx1
  set p1 : Process := { process with
    remaining_time := process.remaining_time - min quantum process.remaining_time }
    with hp1def
  set P1 := replaceFirst procs process p1 with hP1def
  set endt := t + min quantum process.remaining_time with hendt
  set N2 := newlyArrived P1 idx1 endt with hN2def
  set idx2 := idx1 + N2.length with hidx2
  -- basic facts
  have hprocmem : process ∈ procs.take idx1 := by
    have hm : process ∈ queue ++ N := by
      rw [hqe]; exact List.mem_cons_self _ _
    rcases List.mem_append.mp hm with hm | hm
    · have h1 : 0 < queue.count process := List.count_pos_iff.mpr hm
      have h2 := hqt process
      have h4 : process ∈ procs.take idx := List.count_pos_iff.mp (by omega)
      exact mem_take_mono (Nat.le_add_right _ _) h4
    · rw [hidx1, hN, take_newly_split]
      exact List.mem_append.mpr (Or.inr hm)
  have hdropP1 : P1.drop idx1 = procs.drop idx1 :=
    drop_replaceFirst p1 procs idx1 process hprocmem
  have htakeP1 : P1.take idx1 = replaceFirst (procs.take idx1) process p1 :=
    take_replaceFirst p1 procs idx1 process hprocmem
  have hN2eq : N2 = newlyArrived procs idx1 endt := by
    rw [hN2def]
    unfold newlyArrived
    rw [hdropP1]
  have htake1 : procs.take idx1 = procs.take idx ++ N := by
    rw [hidx1, hN]
    exact take_newly_split procs idx t
  have hdrop1 : procs.drop idx = N ++ procs.drop idx1 := by
    rw [hidx1, hN]
    exact drop_newly_split procs idx t
  have htake2 : procs.take idx2 = procs.take idx1 ++ N2 := by
    rw [hidx2, hN2eq]
    exact take_newly_split procs idx1 endt
  have hdrop2 : procs.drop idx1 = N2 ++ procs.drop idx2 := by
    rw [hidx2, hN2eq]
    exact drop_newly_split procs idx1 endt
  have hlenP1 : P1.length = procs.length := length_replaceFirst _ _ _
  have hNle : N.length ≤ procs.length - idx := by
    have := congrArg List.length hdrop1
    simp only [List.length_drop, List.length_append] at this
    omega
  have hidx1n : idx1 ≤ procs.length := by omega
  have hN2le : N2.length ≤ procs.length - idx1 := by
    have := congrArg List.length hdrop2
    simp only [List.length_drop, List.length_append] at this
    omega
  have hidx2n : idx2 ≤ procs.length := by omega
  have hidx12 : idx1 ≤ idx2 := by omega
  have hlen1 : procs.length - idx = N.length + (procs.length - idx1) := by
    have := congrArg List.length hdrop1
    simp only [List.length_drop, List.length_append] at this
    omega
  have hlen2 : procs.length - idx1 = N2.length + (procs.length - idx2) := by
    have := congrArg List.length hdrop2
    simp only [List.length_drop, List.length_append] at this
    omega
  have hlq : queue.length + N.length = rest.length + 1 := by
    have := congrArg List.length hqe
    simp only [List.length_append, List.length_cons] at this
    omega
  have hcq : ∀ u : Process, queue.count u + N.count u =
      rest.count u + (if u = process then 1 else 0) := by
    intro u
    have := congrArg (List.count u) hqe
    rw [List.count_append, count_cons_eq] at this
    omega
  have hwq : (queue.map wRem).sum + (N.map wRem).sum =
      (rest.map wRem).sum + wRem process := by
    have := congrArg (fun l => (l.map wRem).sum) hqe
    simp only [List.map_append, List.sum_append, List.map_cons, List.sum_cons]
      at this
    omega
  have hprocmem2 : process ∈ procs.take idx2 := mem_take_mono hidx12 hprocmem
  have hcrf1 : ∀ u : Process, (replaceFirst (procs.take idx2) process p1).count u +
      (if u = process then 1 else 0) =
      (procs.take idx2).count u + (if u = p1 then 1 else 0) :=
    fun u => count_replaceFirst u p1 (procs.take idx2) process hprocmem2
  have htakeP1' : P1.take idx2 = replaceFirst (procs.take idx2) process p1 :=
    take_replaceFirst p1 procs idx2 process hprocmem2
  have hdropP1' : P1.drop idx2 = procs.drop idx2 :=
    drop_replaceFirst p1 procs idx2 process hprocmem2
  have hcount2 : ∀ u : Process, (procs.take idx2).count u =
      (procs.take idx).count u + N.count u + N2.count u := by
    intro u
    rw [htake2, htake1]
    simp [List.count_append]
    omega
  -- the step
  simp only [rrStep]
  rw [hqe]
  dsimp only
  by_cases hpos : 0 < process.remaining_time - min quantum process.remaining_time
  · rw [if_pos hpos]
    rw [← hp1def, ← hP1def, ← hN, ← hidx1, ← hendt, ← hN2def, ← hidx2]
    have hw : wRem p1 + 1 ≤ wRem process := by
      rw [hp1def]
      dsimp only [wRem]
      rcases min_choice quantum process.remaining_time with hmin | hmin <;>
        rw [hmin] at hpos ⊢ <;> omega
    refine ⟨⟨?_, ?_, ?_⟩, ?_⟩
    · dsimp only
      omega
    · dsimp only
      simp only [List.length_append, List.length_cons, List.length_nil]
      omega
    · intro u
      dsimp only
      rw [htakeP1']
      have e2 := hcrf1 u
      have e3 := hcount2 u
      have e4 := hqt u
      have e5 := hcq u
      have e6 : ([p1] : List Process).count u = if u = p1 then 1 else 0 := by
        rw [count_cons_eq]
        simp
      simp only [List.count_append, e6]
      revert e2 e5
      split_ifs <;> intro e2 e5 <;> omega
    · dsimp only [rrMeasure]
      rw [hdropP1', hdrop1, hdrop2]
      simp only [List.map_append, List.sum_append, List.map_cons, List.sum_cons,
        List.map_nil, List.sum_nil, sum_map_wplus]
      omega
  · rw [if_neg hpos]
    rw [← hp1def, ← hP1def, ← hN, ← hidx1, ← hendt, ← hN2def, ← hidx2]
    -- completion branch
    have hp1mem : p1 ∈ P1.take idx2 := by
      have h1 : p1 ∈ P1.take idx1 := by
        rw [htakeP1]
        exact mem_replaceFirst_self p1 (procs.take idx1) process hprocmem
      exact mem_take_mono hidx12 h1
    have hcrf2 : ∀ (pF : Process) (u : Process),
        (replaceFirst (P1.take idx2) p1 pF).count u + (if u = p1 then 1 else 0) =
        (P1.take idx2).count u + (if u = pF then 1 else 0) :=
      fun pF u => count_replaceFirst u pF (P1.take idx2) p1 hp1mem
    refine ⟨⟨?_, ?_, ?_⟩, ?_⟩
    · dsimp only
      rw [length_replaceFirst, hlenP1]
      omega
    · dsimp only
      rw [length_replaceFirst, hlenP1]
      simp only [List.length_append]
      omega
    · intro u
      dsimp only
      rw [take_replaceFirst _ _ _ _ hp1mem, htakeP1']
      have e2 := hcrf1 u
      have e2b := count_replaceFirst u
        { pid := process.pid, arrival_time := process.arrival_time,
          burst_time := process.burst_time, priority := process.priority,
          remaining_time := process.remaining_time - min quantum process.remaining_time,
          wait_time := endt - process.arrival_time - process.burst_time,
          turnaround_time := endt - process.arrival_time,
          completion_time := endt }
        (P1.take idx2) p1 hp1mem
      rw [htakeP1'] at e2b
      have e3 := hcount2 u
      have e4 := hqt u
      have e5 := hcq u
      simp only [List.count_append]
      revert e2 e2b e5
      split_ifs <;> intro e2 e2b e5 <;> omega
    · dsimp only [rrMeasure]
      rw [drop_replaceFirst _ _ _ _ hp1mem, hdropP1', hdrop1, hdrop2]
      simp only [List.map_append, List.sum_append, List.map_cons, List.sum_cons,
        List.map_nil, List.sum_nil, sum_map_wplus]
      have hwp : 1 ≤ wRem process := by
        dsimp only [wRem]
        omega
      omega

lemma rrLoop_terminates (quantum : Int) (hq : 1 ≤ quantum) :
    ∀ (k : Nat) (s : RRState), RRInv s → rrMeasure s ≤ k →
      ∃ fuel, (rrLoop quantum fuel s).isSome := by
  intro k
  induction k with
  | zero =>
    intro s hInv hk
    by_cases hlt : s.completed < s.processes.length
    · exfalso
      cases hqe : s.ready_queue ++
          newlyArrived s.processes s.process_idx s.current_time with
      | nil =>
        obtain ⟨hq0, hn0⟩ := List.append_eq_nil.mp hqe
        obtain ⟨hidx, hcnt, -⟩ := hInv
        have hql0 : s.ready_queue.length = 0 := by rw [hq0]; rfl
        have hidxlt : s.process_idx < s.processes.length := by omega
        have hd := drop_eq_getD_cons (l := s.processes) hidxlt
        unfold rrMeasure at hk
        rw [hd] at hk
        simp only [List.map_cons, List.sum_cons] at hk
        omega
      | cons p r =>
        cases hqq : s.ready_queue with
        | nil =>
          have hnew : newlyArrived s.processes s.process_idx s.current_time
              = p :: r := by
            rw [hqq] at hqe
            simpa using hqe
          have hdrop1 := drop_newly_split s.processes s.process_idx s.current_time
          unfold rrMeasure at hk
          rw [hdrop1, hnew] at hk
          simp only [List.map_append, List.sum_append, List.map_cons,
            List.sum_cons] at hk
          omega
        | cons q qs =>
          unfold rrMeasure at hk
          rw [hqq] at hk
          simp only [List.map_cons, List.sum_cons] at hk
          have hwq1 : 1 ≤ wRem q := Nat.le_add_left 1 _
          omega
    · exact ⟨1, by rw [rrLoop, if_neg hlt]; rfl⟩
  | succ k ih =>
    intro s hInv hk
    by_cases hlt : s.completed < s.processes.length
    · cases hqe : s.ready_queue ++
          newlyArrived s.processes s.process_idx s.current_time with
      | cons p r =>
        obtain ⟨hInv', hm⟩ := rrStep_exec quantum hq s p r hInv hqe
        obtain ⟨fuel, hf⟩ := ih (rrStep quantum s) hInv' (by omega)
        exact ⟨fuel + 1, by rw [rrLoop, if_pos hlt]; exact hf⟩
      | nil =>
        obtain ⟨hInv', hmeq, hcomp, hprocs, hne⟩ := rrStep_jump quantum s hInv hlt hqe
        obtain ⟨p2, r2, hqe2⟩ : ∃ p2 r2, (rrStep quantum s).ready_queue ++
            newlyArrived (rrStep quantum s).processes (rrStep quantum s).process_idx
              (rrStep quantum s).current_time = p2 :: r2 := by
          cases hc : (rrStep quantum s).ready_queue ++
              newlyArrived (rrStep quantum s).processes (rrStep quantum s).process_idx
                (rrStep quantum s).current_time with
          | nil => exact absurd hc hne
          | cons a b => exact ⟨a, b, rfl⟩
        obtain ⟨hInv2, hm2⟩ := rrStep_exec quantum hq (rrStep quantum s) p2 r2 hInv' hqe2
        obtain ⟨fuel, hf⟩ := ih (rrStep quantum (rrStep quantum s)) hInv2 (by omega)
        have hlt2 : (rrStep quantum s).completed <
            (rrStep quantum s).processes.length := by
          rw [hcomp, hprocs]
          exact hlt
        refine ⟨fuel + 2, ?_⟩
        rw [rrLoop, if_pos hlt, rrLoop, if_pos hlt2]
        exact hf
    · exact ⟨1, by rw [rrLoop, if_neg hlt]; rfl⟩

/-- Claim C9, counterexample: as stated the claim fails — a Round Robin
call with its supplied quantum equal to 0 on the one-process list `[pOne]`
does not terminate for any amount of fuel. -/
theorem C9_counterexample : ¬ rrTerminatesOn 0 [pOne] := by
  rintro ⟨fuel, hf⟩
  rw [rrSchedule_quantum_zero_none fuel] at hf
  simp at hf

/-- Claim C9, amended: every schedule call terminates, provided quantum ≥ 1
for Round Robin, and distinct pids for SJF/Priority (value-equality
membership can otherwise conflate a fresh zero-burst duplicate with a
completed one and the loop then dies on `min()` of an empty sequence).
FCFS is a structurally terminating fold and needs no fuel at all. -/
theorem C9_termination :
    (∀ ps : List Process, (ps.map Process.pid).Nodup →
      ∃ fuel, (sjfSchedule fuel ps).isSome) ∧
    (∀ ps : List Process, (ps.map Process.pid).Nodup →
      ∃ fuel, (prioritySchedule fuel ps).isSome) ∧
    (∀ (quantum : Int) (ps : List Process), 1 ≤ quantum →
      ∃ fuel, (rrSchedule fuel quantum ps).isSome) := by
  have hnd' : ∀ ps : List Process, (ps.map Process.pid).Nodup →
      ((sortByArrival ps).map Process.pid).Nodup := by
    intro ps hnd
    exact (((List.perm_insertionSort byArrival ps).map Process.pid).nodup_iff).mpr hnd
  refine ⟨?_, ?_, ?_⟩
  · intro ps hnd
    obtain ⟨fuel, hsome⟩ := npLoop_terminates (fun p => p.burst_time)
      (sortByArrival ps).length (sortByArrival ps) [] [] 0 0 (hnd' ps hnd)
      (by simp)
    rcases Option.isSome_iff_exists.mp hsome with ⟨⟨fin, tl, cs⟩, hout⟩
    refine ⟨fuel, ?_⟩
    simp only [sjfSchedule]
    rw [hout]
    rfl
  · intro ps hnd
    obtain ⟨fuel, hsome⟩ := npLoop_terminates (fun p => p.priority)
      (sortByArrival ps).length (sortByArrival ps) [] [] 0 0 (hnd' ps hnd)
      (by simp)
    rcases Option.isSome_iff_exists.mp hsome with ⟨⟨fin, tl, cs⟩, hout⟩
    refine ⟨fuel, ?_⟩
    simp only [prioritySchedule]
    rw [hout]
    rfl
  · intro quantum ps hq
    have hInv0 : RRInv ⟨sortByArrival ps, [], 0, 0, 0, none, [], 0⟩ :=
      ⟨Nat.zero_le _, by simp, fun u => by simp⟩
    obtain ⟨fuel, hf⟩ := rrLoop_terminates quantum hq
      (rrMeasure ⟨sortByArrival ps, [], 0, 0, 0, none, [], 0⟩)
      ⟨sortByArrival ps, [], 0, 0, 0, none, [], 0⟩ hInv0 (le_refl _)
    rcases Option.isSome_iff_exists.mp hf with ⟨out, hout⟩
    refine ⟨fuel, ?_⟩
    simp only [rrSchedule]
    rw [hout]
    rfl

/-- Witness for C9 at concrete inputs. -/
theorem C9_witness :
    ([pOne].map Process.pid).Nodup ∧
    (∃ fuel, (sjfSchedule fuel [pOne]).isSome) ∧
    (∃ fuel, (prioritySchedule fuel [pOne]).isSome) ∧
    (1 : Int) ≤ 2 ∧
    (∃ fuel, (rrSchedule fuel 2 [pOne]).isSome) :=
  ⟨by decide, C9_termination.1 [pOne] (by decide),
    C9_termination.2.1 [pOne] (by decide), by decide,
    C9_termination.2.2 2 [pOne] (by decide)⟩
